import Mathlib

/-!
Shallow embedding of the duplicate-card analyzer of the anki-manager
repository (src/duplicate_detector.py), together with theorems settling
the specification claims about it.

Strings are modelled at the character-list level where the algorithms
walk characters.  Python `float` similarity scores are modelled as exact
rationals (the scores are of the form 2*M/(len(a)+len(b)) with small
integer numerators, where consecutive representable values are far
apart, so exact rational comparison agrees with the source's float
comparison on every quantity appearing here).  Character-class helpers
(whitespace, lowercase) model the ASCII behaviour of the corresponding
Python string methods, which covers every input analysed here.
-/

namespace AnkiDup

/-- Whitespace characters recognised by Python `str.split()` (ASCII range). -/
def isPySpace (c : Char) : Bool :=
  c = ' ' || c = '\t' || c = '\n' || c = '\r' || c = '\x0b' || c = '\x0c'

/-- ASCII lowercasing of one character, as Python `str.lower` acts on ASCII
code points. -/
def pyLowerChar (c : Char) : Char :=
  if 65 ≤ c.toNat ∧ c.toNat ≤ 90 then Char.ofNat (c.toNat + 32) else c

/-- Maximal non-whitespace runs of a character list, in order, empties
dropped.  This is Python `text.split()`. -/
def pyWords (l : List Char) : List (List Char) :=
  (l.splitOnP isPySpace).filter (fun w => w ≠ [])

/-- Joining words with single spaces: Python `' '.join(words)`. -/
def joinSpace : List (List Char) → List Char
  | [] => []
  | [w] => w
  | w :: ws => w ++ ' ' :: joinSpace ws

/-- Trailing-punctuation characters removed by the analyzer's normalizer. -/
def isTrailPunct (c : Char) : Bool :=
  c = '.' || c = ',' || c = '!' || c = '?' || c = ';' || c = ':'

/-- Python `text.rstrip('.,!?;:')`: drop the maximal trailing run of those
characters. -/
def pyRstrip (l : List Char) : List Char :=
  (l.reverse.dropWhile isTrailPunct).reverse

/-- DuplicateDetector.normalize_text: collapse whitespace runs to single
spaces (`' '.join(text.split())`), lowercase, then strip the trailing
punctuation run.  Note the source performs no markup/tag stripping here. -/
def normalize_text (s : String) : String :=
  ⟨pyRstrip ((joinSpace (pyWords s.data)).map pyLowerChar)⟩

/-- Card records as consumed by the detector: Python dicts either carrying a
`fields` sub-dict (with optional `Front` / `Back` keys) or optional top-level
`front` / `back` keys. -/
structure Card where
  hasFields : Bool := false
  fieldsFront : Option String := none
  fieldsBack : Option String := none
  topFront : Option String := none
  topBack : Option String := none
  deriving DecidableEq

/-- Front-text extraction:
`card.get('fields', {}).get('Front', '') if 'fields' in card else card.get('front', '')`. -/
def Card.frontText (c : Card) : String :=
  if c.hasFields then c.fieldsFront.getD "" else c.topFront.getD ""

/-- Back-text extraction, same fallback chain as `Card.frontText`. -/
def Card.backText (c : Card) : String :=
  if c.hasFields then c.fieldsBack.getD "" else c.topBack.getD ""

/-- Detector state: `__init__` stores the similarity threshold unchanged (the
source performs no validation; the mutable stats counters play no part in any
claim and are omitted). -/
structure DuplicateDetector where
  similarity_threshold : ℚ := 17/20
  deriving DecidableEq

/-- Constructing a detector: `DuplicateDetector(similarity_threshold)`. -/
def DuplicateDetector.make (t : ℚ) : DuplicateDetector := ⟨t⟩

/-!
Embedding of `difflib.SequenceMatcher(None, a, b).ratio()` as invoked by
`DuplicateDetector.calculate_similarity`.  With `isjunk=None` the junk set
`bjunk` stays empty, so the junk-only extension loops of
`find_longest_match` never run and are omitted; `autojunk=True` (the
default) purges "popular" elements from the index `b2j` when
`len(b) >= 200`.  The dict `b2j` is modelled as the function from a
character to its (ascending) list of occurrence indices in `b`.
-/

/-- Occurrence indices of `c` in `b`, ascending (the `b2j` entry before the
autojunk purge). -/
def occIdx (b : List Char) (c : Char) : List Nat :=
  (List.range b.length).filter (fun j => b.get? j = some c)

/-- Autojunk popularity test: with `len(b) >= 200`, elements occurring more
than `len(b) // 100 + 1` times are dropped from `b2j`. -/
def isPopular (b : List Char) (c : Char) : Bool :=
  200 ≤ b.length && b.length / 100 + 1 < b.count c

/-- The `b2j` mapping of `SequenceMatcher` after the autojunk purge. -/
def b2jF (b : List Char) (c : Char) : List Nat :=
  if isPopular b c then [] else occIdx b c

/-- Lookup in the `j2len` association list, defaulting to 0
(`j2len.get(key, 0)` on the Python dict). -/
def lookupJ (l : List (Nat × Nat)) (j : Nat) : Nat :=
  match l.find? (fun p => p.1 = j) with
  | some p => p.2
  | none => 0

/-- One iteration of the inner `for j in b2j.get(a[i], nothing)` loop of
`find_longest_match`: state is `(newj2len, besti, bestj, bestsize)`; `old` is
the previous row's `j2len` and `i` the current row.  `k = j2len.get(j-1,0)+1`
(readjusted for natural subtraction: at `j = 0` the Python lookup of `-1`
yields the default 0). -/
def flmStep (old : List (Nat × Nat)) (i : Nat)
    (st : List (Nat × Nat) × Nat × Nat × Nat) (j : Nat) :
    List (Nat × Nat) × Nat × Nat × Nat :=
  let k := (if j = 0 then 0 else lookupJ old (j - 1)) + 1
  let nw := st.1 ++ [(j, k)]
  if st.2.2.2 < k then (nw, i + 1 - k, j + 1 - k, k) else (nw, st.2)

/-- One iteration of the outer `for i in range(alo, ahi)` loop of
`find_longest_match`: the new `j2len` row starts empty, lookups read the old
row, and the running best is threaded through. -/
def flmRow (a b : List Char) (blo bhi : Nat)
    (st : List (Nat × Nat) × Nat × Nat × Nat) (i : Nat) :
    List (Nat × Nat) × Nat × Nat × Nat :=
  let js := (b2jF b (a.getD i ' ')).filter (fun j => blo ≤ j && j < bhi)
  js.foldl (flmStep st.1 i) ([], st.2)

/-- The row indices `range(alo, ahi)`. -/
def rowList (alo ahi : Nat) : List Nat :=
  (List.range (ahi - alo)).map (fun d => alo + d)

/-- The dynamic-programming part of `find_longest_match` (everything before
the extension loops), returning `(besti, bestj, bestsize)`. -/
def flmDP (a b : List Char) (alo ahi blo bhi : Nat) : Nat × Nat × Nat :=
  ((rowList alo ahi).foldl (flmRow a b blo bhi) ([], alo, blo, 0)).2

/-- In-bounds character agreement `a[p] == b[q]` (both indices must be in
range, as they always are when the source reaches these comparisons). -/
def chEq (a b : List Char) (p q : Nat) : Bool :=
  match a.get? p, b.get? q with
  | some x, some y => x = y
  | _, _ => false

/-- First extension loop pair of `find_longest_match` (backward direction):
with an empty junk set, extend the match while the preceding characters
agree and the window bounds allow.  The loop decrements `besti` each pass,
so running it with `besti` as fuel is exact. -/
def extendBack (a b : List Char) (alo blo : Nat) :
    Nat → Nat × Nat × Nat → Nat × Nat × Nat
  | 0, st => st
  | fuel + 1, (bi, bj, bs) =>
    if alo < bi ∧ blo < bj ∧ chEq a b (bi - 1) (bj - 1) then
      extendBack a b alo blo fuel (bi - 1, bj - 1, bs + 1)
    else (bi, bj, bs)

/-- Forward extension loop of `find_longest_match`.  Each pass increments
`bestsize` while `besti + bestsize < ahi` holds, so running it with
`ahi - (besti + bestsize)` as fuel is exact. -/
def extendFwd (a b : List Char) (ahi bhi : Nat) :
    Nat → Nat × Nat × Nat → Nat × Nat × Nat
  | 0, st => st
  | fuel + 1, (bi, bj, bs) =>
    if bi + bs < ahi ∧ bj + bs < bhi ∧ chEq a b (bi + bs) (bj + bs) then
      extendFwd a b ahi bhi fuel (bi, bj, bs + 1)
    else (bi, bj, bs)

/-- `SequenceMatcher.find_longest_match(alo, ahi, blo, bhi)` with
`isjunk=None`: dynamic programming, then the two live extension loops (the
junk-only loops never fire since `bjunk` is empty). -/
def findLongestMatch (a b : List Char) (alo ahi blo bhi : Nat) :
    Nat × Nat × Nat :=
  let dp := flmDP a b alo ahi blo bhi
  let eb := extendBack a b alo blo dp.1 dp
  extendFwd a b ahi bhi (ahi - (eb.1 + eb.2.2)) eb

/-- Total size of all matching blocks found by the recursive window
splitting of `get_matching_blocks` (`.ratio()` only consumes this sum; the
sorting and adjacent-merge steps preserve it).  Fuel-indexed: every actual
call supplies more fuel than the recursion depth can consume. -/
def matchSumF (a b : List Char) : Nat → Nat → Nat → Nat → Nat → Nat
  | 0, _, _, _, _ => 0
  | fuel + 1, alo, ahi, blo, bhi =>
    let m := findLongestMatch a b alo ahi blo bhi
    let i := m.1
    let j := m.2.1
    let k := m.2.2
    if k = 0 then 0
    else
      k + (if alo < i ∧ blo < j then matchSumF a b fuel alo i blo j else 0)
        + (if i + k < ahi ∧ j + k < bhi then matchSumF a b fuel (i + k) ahi (j + k) bhi else 0)

/-- `SequenceMatcher(None, a, b).ratio()`: `2*M / (len(a)+len(b))`, with the
`_calculate_ratio` special case returning 1.0 for two empty sequences. -/
def pyRatio (a b : List Char) : ℚ :=
  if a.length + b.length = 0 then 1
  else 2 * (matchSumF a b (a.length + b.length + 1) 0 a.length 0 b.length : ℚ)
        / (a.length + b.length)

/-- DuplicateDetector.calculate_similarity. -/
def calculate_similarity (text1 text2 : String) : ℚ :=
  pyRatio text1.data text2.data

/-!
The classifier `DuplicateDetector.find_duplicates`.  Its single pairwise
loop appends to the four independent category lists; each category list is
recovered here by one pass over the same `(i, j)` pairs in the same order.
The mutable `self.stats` counters feed only the report and are omitted.
-/

/-- A member entry of a duplicate group (`{'index': .., 'card': .., 'role': ..}`;
only substring groups carry roles). -/
structure GroupMember where
  index : Nat
  card : Card
  role : Option String := none
  deriving DecidableEq

/-- One duplicate group as appended by `find_duplicates`.  The numeric
percentage formatted into the similar-group reason string is elided (no
claim consumes it). -/
structure DupGroup where
  gtype : String
  cards : List GroupMember
  similarity : Option ℚ := none
  reason : String := ""
  deriving DecidableEq

/-- The `duplicates` dict returned by `find_duplicates`. -/
structure DupResult where
  exact : List DupGroup := []
  similar : List DupGroup := []
  reverse : List DupGroup := []
  substring : List DupGroup := []
  deriving DecidableEq

/-- The card at an index of the input sequence (always in range where the
source reads it). -/
def cardAt (cards : List Card) (i : Nat) : Card := cards.getD i {}

/-- Raw front text of the card at index `i`. -/
def frontAt (cards : List Card) (i : Nat) : String := (cardAt cards i).frontText

/-- Raw back text of the card at index `i`. -/
def backAt (cards : List Card) (i : Nat) : String := (cardAt cards i).backText

/-- The unordered pairs `(i, j)`, `i < j`, in the loop order of the source:
outer index ascending, inner index ascending. -/
def allPairs (n : Nat) : List (Nat × Nat) :=
  (List.range n).flatMap fun i =>
    ((List.range n).filter (fun j => i < j)).map fun j => (i, j)

/-- Python substring containment `needle in hay` on character lists. -/
def listContains (hay needle : List Char) : Bool :=
  (List.range (hay.length + 1)).any fun s => (hay.drop s).take needle.length = needle

/-- The reverse-duplicate test:
`normalize(front1) == normalize(back2) and normalize(back1) == normalize(front2)`. -/
def reverseCondition (cards : List Card) (i j : Nat) : Bool :=
  normalize_text (frontAt cards i) = normalize_text (backAt cards j) &&
  normalize_text (backAt cards i) = normalize_text (frontAt cards j)

/-- The similar-card test guarding the `elif` branch: both raw fronts truthy
(non-empty) and `threshold <= similarity < 1.0`. -/
def similarCondition (d : DuplicateDetector) (cards : List Card) (i j : Nat) : Bool :=
  frontAt cards i ≠ "" && frontAt cards j ≠ "" &&
  d.similarity_threshold ≤ calculate_similarity (frontAt cards i) (frontAt cards j) &&
  calculate_similarity (frontAt cards i) (frontAt cards j) < 1

/-- Contribution of one pair to `duplicates['reverse']`. -/
def reversePair (cards : List Card) (p : Nat × Nat) : Option DupGroup :=
  if reverseCondition cards p.1 p.2 then
    some { gtype := "reverse"
           cards := [⟨p.1, cardAt cards p.1, none⟩, ⟨p.2, cardAt cards p.2, none⟩]
           reason := "Cards are reverses of each other" }
  else none

/-- Contribution of one pair to `duplicates['similar']`: the similar check is
an `elif` of the reverse check, so a reverse pair contributes nothing here. -/
def similarPair (d : DuplicateDetector) (cards : List Card) (p : Nat × Nat) :
    Option DupGroup :=
  if reverseCondition cards p.1 p.2 then none
  else if similarCondition d cards p.1 p.2 then
    some { gtype := "similar"
           cards := [⟨p.1, cardAt cards p.1, none⟩, ⟨p.2, cardAt cards p.2, none⟩]
           similarity := some (calculate_similarity (frontAt cards p.1) (frontAt cards p.2))
           reason := "Similar front text" }
  else none

/-- Contribution of one pair to `duplicates['substring']`: an independent
`if` (not chained after the reverse/similar branches), guarded by both raw
fronts exceeding 10 characters, first testing `front1 in front2`. -/
def substringPair (cards : List Card) (p : Nat × Nat) : Option DupGroup :=
  let f1 := frontAt cards p.1
  let f2 := frontAt cards p.2
  if 10 < f1.length && 10 < f2.length then
    if listContains f2.data f1.data then
      some { gtype := "substring"
             cards := [⟨p.1, cardAt cards p.1, some "contained"⟩,
                       ⟨p.2, cardAt cards p.2, some "container"⟩]
             reason := "First card is contained in second" }
    else if listContains f1.data f2.data then
      some { gtype := "substring"
             cards := [⟨p.1, cardAt cards p.1, some "container"⟩,
                       ⟨p.2, cardAt cards p.2, some "contained"⟩]
             reason := "Second card is contained in first" }
    else none
  else none

/-- Normalized front key of a card, as used for the exact grouping. -/
def frontKey (c : Card) : String := normalize_text c.frontText

/-- Append a value under a key in an insertion-ordered association list:
existing key extends its (first) bucket, a fresh key joins at the end.  This
is `defaultdict(list)` append with dict insertion order. -/
def addToGroups (gs : List (String × List (Nat × Card))) (key : String)
    (v : Nat × Card) : List (String × List (Nat × Card)) :=
  match gs with
  | [] => [(key, [v])]
  | (k, vs) :: rest =>
    if k = key then (k, vs ++ [v]) :: rest else (k, vs) :: addToGroups rest key v

/-- Sequential grouping of enumerated cards by normalized front text,
skipping empty keys (`if front_norm:`). -/
def buildGroups : List (Nat × Card) → List (String × List (Nat × Card)) →
    List (String × List (Nat × Card))
  | [], gs => gs
  | p :: rest, gs =>
    buildGroups rest
      (if frontKey p.2 = "" then gs else addToGroups gs (frontKey p.2) p)

/-- The `front_groups` mapping of `find_duplicates`. -/
def front_groups (cards : List Card) : List (String × List (Nat × Card)) :=
  buildGroups cards.enum []

/-- The `duplicates['exact']` list: every normalized-front bucket of size at
least 2 becomes one exact group over all its members. -/
def exactGroups (cards : List Card) : List DupGroup :=
  (front_groups cards).filterMap fun kg =>
    if 1 < kg.2.length then
      let front_norm := kg.1
      some { gtype := "exact_front"
             cards := kg.2.map fun p => ⟨p.1, p.2, none⟩
             reason := s!"Identical front text: \"{front_norm}\"" }
    else none

/-- DuplicateDetector.find_duplicates. -/
def find_duplicates (d : DuplicateDetector) (cards : List Card) : DupResult :=
  { exact := exactGroups cards
    reverse := (allPairs cards.length).filterMap (reversePair cards)
    similar := (allPairs cards.length).filterMap (similarPair d cards)
    substring := (allPairs cards.length).filterMap (substringPair cards) }

/-!
The suggestion generator and removal application.
-/

/-- One suggestion dict; the action tag is the constructor. -/
inductive Suggestion
  | removeS (index : Nat) (reason : String) (duplicateOf : Nat)
  | mergeReverseS (indices : List Nat) (reason : String)
  | reviewS (indices : List Nat) (similarity : Option ℚ) (reason : String)
      (advice : String)
  deriving DecidableEq

/-- Exact-group pass of `generate_removal_suggestions`: keep the first
member, and for every later member not yet in the removed set add it to the
set and emit a `remove` suggestion citing the kept index (state is
`(suggestions, cards_to_remove)`; the set is modelled as a duplicate-free
list).  A group without members would make the source raise on `cards[0]`;
`find_duplicates` never produces one. -/
def exactInner (reason : String) (keep : GroupMember)
    (st2 : List Suggestion × List Nat) (m : GroupMember) :
    List Suggestion × List Nat :=
  if m.index ∈ st2.2 then st2
  else (st2.1 ++ [Suggestion.removeS m.index reason keep.index],
        st2.2 ++ [m.index])

def exactStep (st : List Suggestion × List Nat) (g : DupGroup) :
    List Suggestion × List Nat :=
  match g.cards with
  | [] => st
  | keep :: rest => rest.foldl (exactInner g.reason keep) st

/-- Reverse-group pass: if neither member of the pair is already removed,
emit one `merge_reverse` suggestion over both indices. -/
def reverseStep (st : List Suggestion × List Nat) (g : DupGroup) :
    List Suggestion × List Nat :=
  match g.cards with
  | m0 :: m1 :: _ =>
    if m0.index ∉ st.2 ∧ m1.index ∉ st.2 then
      (st.1 ++ [Suggestion.mergeReverseS [m0.index, m1.index]
        "These cards are reverses - consider keeping both or creating a reversible card type"],
       st.2)
    else st
  | _ => st

/-- Similar-group pass: if neither member is already removed, emit one
`review` suggestion carrying the group's similarity score. -/
def similarStep (st : List Suggestion × List Nat) (g : DupGroup) :
    List Suggestion × List Nat :=
  match g.cards with
  | m0 :: m1 :: _ =>
    if m0.index ∉ st.2 ∧ m1.index ∉ st.2 then
      (st.1 ++ [Suggestion.reviewS [m0.index, m1.index] g.similarity g.reason
        "Manual review needed - cards are similar but not identical"],
       st.2)
    else st
  | _ => st

/-- Substring-group pass: if the contained member is not already removed,
emit one `review` suggestion over all member indices.  A group without a
contained member would make the source's `next(...)` raise;
`find_duplicates` never produces one. -/
def substringStep (st : List Suggestion × List Nat) (g : DupGroup) :
    List Suggestion × List Nat :=
  match g.cards.find? (fun m => m.role = some "contained") with
  | some m =>
    if m.index ∉ st.2 then
      (st.1 ++ [Suggestion.reviewS (g.cards.map (fun c => c.index)) none g.reason
        "Consider removing the shorter card or combining them"],
       st.2)
    else st
  | none => st

/-- DuplicateDetector.generate_removal_suggestions. -/
def generate_removal_suggestions (duplicates : DupResult) : List Suggestion :=
  let st1 := duplicates.exact.foldl exactStep ([], [])
  let st2 := duplicates.reverse.foldl reverseStep st1
  let st3 := duplicates.similar.foldl similarStep st2
  let st4 := duplicates.substring.foldl substringStep st3
  st4.1

/-- The indices targeted by `remove` suggestions, in emission order. -/
def removeTargets (suggs : List Suggestion) : List Nat :=
  suggs.filterMap fun s =>
    match s with
    | Suggestion.removeS i _ _ => some i
    | _ => none

/-- Accumulating `indices_to_remove.add(suggestion['index'])` for `remove`
suggestions (the Python set is modelled as a duplicate-free list). -/
def removeAcc (acc : List Nat) (s : Suggestion) : List Nat :=
  match s with
  | Suggestion.removeS i _ _ => if i ∈ acc then acc else acc ++ [i]
  | _ => acc

/-- The body of the rebuild loop of `apply_removals`: keep the card unless
its position is in the removal set. -/
def keepAcc (toRemove : List Nat) (out : List Card) (p : Nat × Card) : List Card :=
  if p.1 ∈ toRemove then out else out ++ [p.2]

/-- DuplicateDetector.apply_removals: collect the indices of `remove`
suggestions into a set, then keep every card whose position is not in it. -/
def apply_removals (cards : List Card) (suggs : List Suggestion) : List Card :=
  let indices_to_remove := suggs.foldl removeAcc []
  cards.enum.foldl (keepAcc indices_to_remove) []

/-- Whether a suggestion's action tag is `remove`. -/
def isRemove (s : Suggestion) : Bool :=
  match s with
  | Suggestion.removeS _ _ _ => true
  | _ => false

/-- A default-threshold detector (`DuplicateDetector()`), for concrete runs. -/
def defaultDetector : DuplicateDetector := DuplicateDetector.make (17/20)

/-- A flat two-field card, convenient for concrete decks. -/
def mkCard (f b : String) : Card := { topFront := some f, topBack := some b }

/-- Concrete deck witnessing that a pair can satisfy the reverse and the
similar conditions at once. -/
def deckRevSim : List Card :=
  [mkCard "abcdefghij" "abcdefghik", mkCard "abcdefghik" "abcdefghij"]

/-- Concrete deck whose two fronts are identical 11-character strings. -/
def deckIdent : List Card :=
  [mkCard "abcdefghijk" "x", mkCard "abcdefghijk" "y"]

/-- Concrete deck whose four texts all normalize to the empty string. -/
def deckEmptyNorm : List Card :=
  [mkCard "!!!!!!!!!!!!" "?", mkCard "!!!!!!!!!!!" ","]

/-- Concrete deck with a similar (but not reverse) pair. -/
def deckSim : List Card := [mkCard "abcdefghij" "x", mkCard "abcdefghik" "y"]

/-- Concrete deck where the second front is contained in the first. -/
def deckSub : List Card := [mkCard "hello world today" "x", mkCard "hello world" "y"]

/-- Concrete deck with one exact-duplicate pair. -/
def deckExact : List Card := [mkCard "dup" "a", mkCard "dup" "b"]
end AnkiDup

namespace AnkiDup

/-- Evaluation helper: once the block-match total and the two lengths are
computed, the ratio is the expected fraction. -/
theorem pyRatio_eval (a b : List Char) (m la lb : Nat)
    (hla : a.length = la) (hlb : b.length = lb)
    (hm : matchSumF a b (a.length + b.length + 1) 0 a.length 0 b.length = m)
    (h0 : la + lb ≠ 0) :
    pyRatio a b = 2 * (m : ℚ) / ((la : ℚ) + (lb : ℚ)) := by
  unfold pyRatio
  rw [hm, hla, hlb, if_neg (by exact_mod_cast h0)]

/-!
Character-level facts about the normalizer.
-/

theorem char_toNat_ofNat_valid {n : Nat} (h : n.isValidChar) :
    (Char.ofNat n).toNat = n := by
  rw [Char.ofNat, dif_pos h]
  rfl

theorem char_eq_iff_toNat {a b : Char} : a = b ↔ a.toNat = b.toNat := by
  constructor
  · intro h; rw [h]
  · intro h
    apply Char.ext
    exact UInt32.toNat.inj h

theorem pyLowerChar_toNat (c : Char) :
    (pyLowerChar c).toNat =
      if 65 ≤ c.toNat ∧ c.toNat ≤ 90 then c.toNat + 32 else c.toNat := by
  unfold pyLowerChar
  split
  · rename_i h
    exact char_toNat_ofNat_valid (Or.inl (by omega))
  · rfl

theorem isPySpace_iff_toNat (c : Char) :
    isPySpace c = true ↔
      (c.toNat = 32 ∨ c.toNat = 9 ∨ c.toNat = 10 ∨ c.toNat = 13 ∨
       c.toNat = 11 ∨ c.toNat = 12) := by
  simp only [isPySpace, Bool.or_eq_true, decide_eq_true_eq, char_eq_iff_toNat,
    show (' ').toNat = 32 from rfl, show ('\t').toNat = 9 from rfl,
    show ('\n').toNat = 10 from rfl, show ('\r').toNat = 13 from rfl,
    show ('\x0b').toNat = 11 from rfl, show ('\x0c').toNat = 12 from rfl]
  tauto

theorem isPySpace_pyLower (c : Char) : isPySpace (pyLowerChar c) = isPySpace c := by
  have h := pyLowerChar_toNat c
  by_cases hc : 65 ≤ c.toNat ∧ c.toNat ≤ 90
  · rw [if_pos hc] at h
    have h1 : isPySpace (pyLowerChar c) = false := by
      rw [← Bool.not_eq_true, isPySpace_iff_toNat, h]
      omega
    have h2 : isPySpace c = false := by
      rw [← Bool.not_eq_true, isPySpace_iff_toNat]
      omega
    rw [h1, h2]
  · rw [if_neg hc] at h
    have : pyLowerChar c = c := char_eq_iff_toNat.mpr h
    rw [this]

theorem pyLower_space {c : Char} (h : pyLowerChar c = ' ') : c = ' ' := by
  have ht := pyLowerChar_toNat c
  rw [h, show (' ').toNat = 32 from rfl] at ht
  split at ht
  · rename_i hcond
    omega
  · exact char_eq_iff_toNat.mpr (by rw [← ht]; rfl)

theorem pyLower_not_upper (c : Char) :
    ¬(65 ≤ (pyLowerChar c).toNat ∧ (pyLowerChar c).toNat ≤ 90) := by
  have h := pyLowerChar_toNat c
  split at h <;> omega

/-!
Word-splitting and joining facts.
-/

theorem splitOnP_chunk_no_p {α : Type} (p : α → Bool) :
    ∀ l : List α, ∀ w ∈ l.splitOnP p, ∀ c ∈ w, p c = false := by
  intro l
  induction l with
  | nil =>
    intro w hw c hc
    rw [List.splitOnP_nil] at hw
    simp only [List.mem_singleton] at hw
    subst hw
    cases hc
  | cons x xs ih =>
    intro w hw c hc
    rw [List.splitOnP_cons] at hw
    by_cases hx : p x
    · rw [if_pos hx] at hw
      rcases List.mem_cons.mp hw with h | h
      · subst h; cases hc
      · exact ih w h c hc
    · rw [if_neg hx] at hw
      obtain ⟨h0, t0, ht⟩ := List.exists_cons_of_ne_nil (List.splitOnP_ne_nil p xs)
      rw [ht] at hw
      simp only [List.modifyHead, List.mem_cons] at hw
      rcases hw with h | h
      · subst h
        rcases List.mem_cons.mp hc with h' | h'
        · subst h'
          exact Bool.eq_false_iff.mpr hx
        · exact ih h0 (by rw [ht]; exact List.mem_cons_self h0 t0) c h'
      · exact ih w (by rw [ht]; exact List.mem_cons_of_mem h0 h) c hc

theorem pyWords_mem {l : List Char} {w : List Char} (hw : w ∈ pyWords l) :
    w ≠ [] ∧ ∀ c ∈ w, isPySpace c = false := by
  unfold pyWords at hw
  rw [List.mem_filter] at hw
  refine ⟨by simpa using hw.2, ?_⟩
  exact splitOnP_chunk_no_p isPySpace l w hw.1

theorem joinSpace_cons_cons (w x : List Char) (ws : List (List Char)) :
    joinSpace (w :: x :: ws) = w ++ ' ' :: joinSpace (x :: ws) := rfl

theorem joinSpace_mem {ws : List (List Char)} {c : Char}
    (hc : c ∈ joinSpace ws) : c = ' ' ∨ ∃ w ∈ ws, c ∈ w := by
  induction ws with
  | nil => cases hc
  | cons w ws ih =>
    cases ws with
    | nil =>
      right
      exact ⟨w, List.mem_cons_self _ _, hc⟩
    | cons x ws' =>
      rw [joinSpace_cons_cons] at hc
      rcases List.mem_append.mp hc with h | h
      · right; exact ⟨w, List.mem_cons_self _ _, h⟩
      · rcases List.mem_cons.mp h with h' | h'
        · left; exact h'
        · rcases ih h' with h'' | ⟨w', hw', hc'⟩
          · left; exact h''
          · right; exact ⟨w', List.mem_cons_of_mem _ hw', hc'⟩

theorem joinSpace_head {ws : List (List Char)}
    (h : ∀ w ∈ ws, w ≠ [] ∧ ∀ c ∈ w, isPySpace c = false) :
    ∀ c, (joinSpace ws).head? = some c → isPySpace c = false := by
  intro c hc
  cases ws with
  | nil => cases hc
  | cons w ws =>
    obtain ⟨hne, hw⟩ := h w (List.mem_cons_self _ _)
    obtain ⟨d, t, hd⟩ := List.exists_cons_of_ne_nil hne
    have hhead : (joinSpace (w :: ws)).head? = some d := by
      cases ws with
      | nil => simp [joinSpace, hd]
      | cons x ws' => rw [joinSpace_cons_cons, hd]; rfl
    rw [hhead] at hc
    injection hc with hc
    subst hc
    exact hw d (by rw [hd]; exact List.mem_cons_self _ _)

theorem chain_of_all_left {w : List Char}
    (hw : ∀ c ∈ w, isPySpace c = false) :
    w.Chain' (fun a b => isPySpace a = false ∨ isPySpace b = false) := by
  apply List.Pairwise.chain'
  exact List.pairwise_of_forall_mem_list fun a ha _ _ => Or.inl (hw a ha)

theorem joinSpace_chain {ws : List (List Char)}
    (h : ∀ w ∈ ws, w ≠ [] ∧ ∀ c ∈ w, isPySpace c = false) :
    (joinSpace ws).Chain'
      (fun a b => isPySpace a = false ∨ isPySpace b = false) := by
  induction ws with
  | nil => exact List.chain'_nil
  | cons w ws ih =>
    have hw := h w (List.mem_cons_self _ _)
    have hws : ∀ w' ∈ ws, w' ≠ [] ∧ ∀ c ∈ w', isPySpace c = false :=
      fun w' hw' => h w' (List.mem_cons_of_mem _ hw')
    cases ws with
    | nil => exact chain_of_all_left hw.2
    | cons x ws' =>
      rw [joinSpace_cons_cons]
      rw [List.chain'_append]
      refine ⟨chain_of_all_left hw.2, ?_, ?_⟩
      · rw [List.chain'_cons']
        refine ⟨?_, ih hws⟩
        intro y hy
        exact Or.inr (joinSpace_head hws y hy)
      · intro c hc y hy
        simp only [List.head?_cons, Option.mem_def, Option.some.injEq] at hy
        exact Or.inl (hw.2 c (List.mem_of_mem_getLast? hc))

/-!
Facts about the trailing-punctuation strip.
-/

theorem head?_dropWhile {α : Type} (p : α → Bool) :
    ∀ (l : List α) (c : α), (l.dropWhile p).head? = some c → p c = false := by
  intro l
  induction l with
  | nil => intro c hc; cases hc
  | cons x xs ih =>
    intro c hc
    rw [List.dropWhile_cons] at hc
    split at hc
    · exact ih c hc
    · rename_i hx
      injection hc with hc
      subst hc
      exact Bool.not_eq_true _ |>.mp hx

theorem pyRstrip_decomp (l : List Char) :
    l = pyRstrip l ++ (l.reverse.takeWhile isTrailPunct).reverse ∧
    ∀ c ∈ (l.reverse.takeWhile isTrailPunct).reverse, isTrailPunct c = true := by
  constructor
  · conv_lhs => rw [← List.reverse_reverse l,
      ← List.takeWhile_append_dropWhile (p := isTrailPunct) (l := l.reverse)]
    rw [List.reverse_append]
    rfl
  · intro c hc
    rw [List.mem_reverse] at hc
    exact List.mem_takeWhile_imp hc

theorem pyRstrip_getLast {l : List Char} {c : Char}
    (hc : (pyRstrip l).getLast? = some c) : isTrailPunct c = false := by
  unfold pyRstrip at hc
  rw [List.getLast?_reverse] at hc
  exact head?_dropWhile isTrailPunct l.reverse c hc

theorem pyRstrip_head {l : List Char} {c : Char}
    (hc : (pyRstrip l).head? = some c) : l.head? = some c := by
  obtain ⟨hdec, -⟩ := pyRstrip_decomp l
  rw [hdec]
  cases hl : pyRstrip l with
  | nil => rw [hl] at hc; cases hc
  | cons x t =>
    rw [hl] at hc
    injection hc with hc
    subst hc
    rfl

theorem pyRstrip_subset {l : List Char} : ∀ c ∈ pyRstrip l, c ∈ l := by
  intro c hc
  obtain ⟨hdec, -⟩ := pyRstrip_decomp l
  rw [hdec]
  exact List.mem_append_left _ hc

theorem pyRstrip_chain {l : List Char}
    (h : l.Chain' (fun a b => isPySpace a = false ∨ isPySpace b = false)) :
    (pyRstrip l).Chain' (fun a b => isPySpace a = false ∨ isPySpace b = false) := by
  obtain ⟨hdec, -⟩ := pyRstrip_decomp l
  rw [hdec, List.chain'_append] at h
  exact h.1

/-- Amended C1: the analyzer's `normalize_text` collapses whitespace runs to
single spaces (any whitespace character in the output is a plain space, no
two adjacent output characters are both whitespace, and the output never
starts with whitespace), lowercases ASCII (no character in the range A-Z
survives), and removes exactly the maximal trailing run of `.,!?;:`
characters — but it strips no markup, as witnessed by the surviving `<`. -/
theorem normalize_text_behavior :
    (∀ s : String,
      (∀ c ∈ (normalize_text s).data, isPySpace c = true → c = ' ') ∧
      (normalize_text s).data.Chain'
        (fun a b => isPySpace a = false ∨ isPySpace b = false) ∧
      (∀ c, (normalize_text s).data.head? = some c → isPySpace c = false) ∧
      (∀ c, (normalize_text s).data.getLast? = some c → isTrailPunct c = false) ∧
      (∀ c ∈ (normalize_text s).data, ¬(65 ≤ c.toNat ∧ c.toNat ≤ 90)) ∧
      (∃ t, (∀ c ∈ t, isTrailPunct c = true) ∧
        (joinSpace (pyWords s.data)).map pyLowerChar = (normalize_text s).data ++ t)) ∧
    '<' ∈ (normalize_text "<b>Hi  there</b>!").data := by
  constructor
  · intro s
    have hwords := fun w hw => pyWords_mem (l := s.data) (w := w) hw
    have hdata : (normalize_text s).data
        = pyRstrip ((joinSpace (pyWords s.data)).map pyLowerChar) := rfl
    have hmem : ∀ c ∈ (normalize_text s).data,
        c = ' ' ∨ isPySpace c = false := by
      intro c hc
      rw [hdata] at hc
      have hc' := pyRstrip_subset c hc
      obtain ⟨d, hd, hcd⟩ := List.mem_map.mp hc'
      rcases joinSpace_mem hd with h | ⟨w, hw, hdw⟩
      · left; rw [← hcd, h]; decide
      · right
        rw [← hcd, isPySpace_pyLower]
        exact (hwords w hw).2 d hdw
    refine ⟨?_, ?_, ?_, ?_, ?_, ?_⟩
    · intro c hc hsp
      rcases hmem c hc with h | h
      · exact h
      · rw [hsp] at h; cases h
    · rw [hdata]
      apply pyRstrip_chain
      rw [List.chain'_map]
      apply List.Chain'.imp ?_ (joinSpace_chain hwords)
      intro a b hab
      rcases hab with h | h
      · left; rw [isPySpace_pyLower, h]
      · right; rw [isPySpace_pyLower, h]
    · intro c hc
      rw [hdata] at hc
      have hc' := pyRstrip_head hc
      rw [List.head?_map] at hc'
      cases hj : (joinSpace (pyWords s.data)).head? with
      | none => rw [hj] at hc'; cases hc'
      | some d =>
        rw [hj] at hc'
        injection hc' with hc'
        rw [← hc', isPySpace_pyLower]
        exact joinSpace_head hwords d hj
    · intro c hc
      rw [hdata] at hc
      exact pyRstrip_getLast hc
    · intro c hc
      rcases List.mem_map.mp (pyRstrip_subset c (hdata ▸ hc)) with ⟨d, -, hcd⟩
      rw [← hcd]
      exact pyLower_not_upper d
    · obtain ⟨hdec, hpunct⟩ :=
        pyRstrip_decomp ((joinSpace (pyWords s.data)).map pyLowerChar)
      exact ⟨_, hpunct, by rw [hdata, ← hdec]⟩
  · decide

/-- Amended C7: the constructor accepts any similarity threshold, storing it
verbatim — out-of-range values are neither rejected with an error nor
clamped, and analysis still runs with the stored value (the exact pass, which
ignores the threshold, is unchanged under any threshold). -/
theorem make_accepts_any_threshold :
    ∀ t : ℚ, (DuplicateDetector.make t).similarity_threshold = t ∧
      ∀ cards, (find_duplicates (DuplicateDetector.make t) cards).exact
        = (find_duplicates defaultDetector cards).exact :=
  fun _ => ⟨rfl, fun _ => rfl⟩

/-- Counterexample to C1: `DuplicateDetector.normalize_text` does not strip
markup: on an input containing the tags `<b>` and `</b>` the tag characters
survive into the normalized output. -/
theorem normalize_keeps_markup_counter :
    normalize_text "<b>Hi  there</b>!" = "<b>hi there</b>" ∧
    '<' ∈ (normalize_text "<b>Hi  there</b>!").data ∧
    '>' ∈ (normalize_text "<b>Hi  there</b>!").data := by
  decide

/-!
Membership facts for the pairwise loops.
-/

theorem allPairs_mem {n i j : Nat} : (i, j) ∈ allPairs n ↔ i < j ∧ j < n := by
  unfold allPairs
  simp only [List.mem_flatMap, List.mem_map, List.mem_filter, List.mem_range,
    decide_eq_true_eq]
  constructor
  · rintro ⟨i', -, j', ⟨hj', hij'⟩, heq⟩
    injection heq with h1 h2
    subst h1; subst h2
    exact ⟨hij', hj'⟩
  · rintro ⟨hij, hj⟩
    exact ⟨i, Nat.lt_trans hij hj, j, ⟨hj, hij⟩, rfl⟩

/-- Amended C2: Reverse takes priority over Similar pair-by-pair (the similar
check sits on an `elif` after the reverse check), so a pair satisfying both
conditions is emitted only as a Reverse group; every emitted Similar group
comes from a pair whose reverse condition failed.  Substring remains
independent of this chain. -/
theorem similar_suppressed_by_reverse :
    (∀ d cards g, g ∈ (find_duplicates d cards).similar →
      ∃ i j, g.cards.map GroupMember.index = [i, j] ∧
        reverseCondition cards i j = false ∧
        similarCondition d cards i j = true) ∧
    (∀ d cards i j, i < j → j < cards.length →
      reverseCondition cards i j = true →
      ∃ g ∈ (find_duplicates d cards).reverse,
        g.cards.map GroupMember.index = [i, j]) := by
  constructor
  · intro d cards g hg
    obtain ⟨p, -, hp⟩ := List.mem_filterMap.mp hg
    unfold similarPair at hp
    split at hp
    · cases hp
    · rename_i hrev
      split at hp
      · rename_i hsim
        injection hp with hp
        subst hp
        exact ⟨p.1, p.2, rfl, Bool.eq_false_iff.mpr hrev, hsim⟩
      · cases hp
  · intro d cards i j hij hj hrev
    refine ⟨⟨"reverse", [⟨i, cardAt cards i, none⟩, ⟨j, cardAt cards j, none⟩],
        none, "Cards are reverses of each other"⟩,
      List.mem_filterMap.mpr ⟨(i, j), allPairs_mem.mpr ⟨hij, hj⟩, ?_⟩, rfl⟩
    unfold reversePair
    rw [if_pos hrev]

/-- Amended C5: for every unordered pair whose raw fronts both exceed 10
characters, a Substring group is emitted exactly when one front is a literal
substring of the other — identical fronts included (Python `in` holds for
equal strings), in which case the first card is tagged contained.  When
`front_i` occurs in `front_j` the pair is tagged (i contained, j container),
otherwise (when only `front_j` occurs in `front_i`) the roles are swapped;
for non-identical fronts this tags the shorter front as contained. -/
theorem substring_characterization :
    ∀ d cards i j, i < j → j < cards.length →
      10 < (frontAt cards i).length → 10 < (frontAt cards j).length →
      ((listContains (frontAt cards j).data (frontAt cards i).data = true →
        ∃ g ∈ (find_duplicates d cards).substring,
          g.cards.map (fun m => (m.index, m.role)) =
            [(i, some "contained"), (j, some "container")]) ∧
       (listContains (frontAt cards j).data (frontAt cards i).data = false →
        listContains (frontAt cards i).data (frontAt cards j).data = true →
        ∃ g ∈ (find_duplicates d cards).substring,
          g.cards.map (fun m => (m.index, m.role)) =
            [(i, some "container"), (j, some "contained")]) ∧
       ((∃ g ∈ (find_duplicates d cards).substring,
          g.cards.map GroupMember.index = [i, j]) →
        listContains (frontAt cards j).data (frontAt cards i).data = true ∨
        listContains (frontAt cards i).data (frontAt cards j).data = true)) := by
  intro d cards i j hij hj hl1 hl2
  refine ⟨?_, ?_, ?_⟩
  · intro hin
    refine ⟨⟨"substring", [⟨i, cardAt cards i, some "contained"⟩,
        ⟨j, cardAt cards j, some "container"⟩], none,
        "First card is contained in second"⟩,
      List.mem_filterMap.mpr ⟨(i, j), allPairs_mem.mpr ⟨hij, hj⟩, ?_⟩, rfl⟩
    simp only [substringPair]
    rw [if_pos (by simp [hl1, hl2]), if_pos hin]
  · intro hnotin hin
    refine ⟨⟨"substring", [⟨i, cardAt cards i, some "container"⟩,
        ⟨j, cardAt cards j, some "contained"⟩], none,
        "Second card is contained in first"⟩,
      List.mem_filterMap.mpr ⟨(i, j), allPairs_mem.mpr ⟨hij, hj⟩, ?_⟩, rfl⟩
    simp only [substringPair]
    rw [if_pos (by simp [hl1, hl2]), if_neg (by simp [hnotin]), if_pos hin]
  · rintro ⟨g, hg, hidx⟩
    obtain ⟨p, -, hp⟩ := List.mem_filterMap.mp hg
    simp only [substringPair] at hp
    split at hp
    · split at hp
      · rename_i hin
        injection hp with hp
        subst hp
        simp only [List.map_cons, List.map_nil, List.cons.injEq, and_true] at hidx
        obtain ⟨h1, h2⟩ := hidx
        subst h1; subst h2
        exact Or.inl hin
      · split at hp
        · rename_i hin
          injection hp with hp
          subst hp
          simp only [List.map_cons, List.map_nil, List.cons.injEq, and_true] at hidx
          obtain ⟨h1, h2⟩ := hidx
          subst h1; subst h2
          exact Or.inr hin
        · cases hp
    · cases hp

/-!
Key invariant of the exact-grouping association list: every bucket carries
its own key, and keys are never empty.
-/

theorem addToGroups_key_inv {gs : List (String × List (Nat × Card))}
    {key : String} {v : Nat × Card}
    (h : ∀ kg ∈ gs, kg.1 ≠ "" ∧ ∀ u ∈ kg.2, frontKey u.2 = kg.1)
    (hkey : key ≠ "") (hv : frontKey v.2 = key) :
    ∀ kg ∈ addToGroups gs key v,
      kg.1 ≠ "" ∧ ∀ u ∈ kg.2, frontKey u.2 = kg.1 := by
  induction gs with
  | nil =>
    intro kg hkg
    simp only [addToGroups, List.mem_singleton] at hkg
    subst hkg
    refine ⟨hkey, ?_⟩
    intro u hu
    rw [List.mem_singleton] at hu
    subst hu
    exact hv
  | cons kg0 gs ih =>
    intro kg hkg
    obtain ⟨k0, vs0⟩ := kg0
    rw [addToGroups] at hkg
    split at hkg
    · rename_i hk
      subst hk
      rcases List.mem_cons.mp hkg with h' | h'
      · subst h'
        obtain ⟨h1, h2⟩ := h (k0, vs0) (List.mem_cons_self _ _)
        refine ⟨h1, ?_⟩
        intro u hu
        rcases List.mem_append.mp hu with h'' | h''
        · exact h2 u h''
        · rw [List.mem_singleton] at h''
          subst h''
          exact hv
      · exact h kg (List.mem_cons_of_mem _ h')
    · rcases List.mem_cons.mp hkg with h' | h'
      · subst h'
        exact h (k0, vs0) (List.mem_cons_self _ _)
      · exact ih (fun kg' hkg' => h kg' (List.mem_cons_of_mem _ hkg')) kg h'

theorem buildGroups_key_inv :
    ∀ (l : List (Nat × Card)) (gs : List (String × List (Nat × Card))),
      (∀ kg ∈ gs, kg.1 ≠ "" ∧ ∀ u ∈ kg.2, frontKey u.2 = kg.1) →
      ∀ kg ∈ buildGroups l gs,
        kg.1 ≠ "" ∧ ∀ u ∈ kg.2, frontKey u.2 = kg.1 := by
  intro l
  induction l with
  | nil => intro gs h kg hkg; exact h kg hkg
  | cons p rest ih =>
    intro gs h kg hkg
    rw [buildGroups] at hkg
    split at hkg
    · exact ih gs h kg hkg
    · rename_i hne
      exact ih _ (addToGroups_key_inv h hne rfl) kg hkg

/-- Amended C8: records whose front normalizes to the empty string are
excluded from Exact grouping only — every member of every Exact group has a
non-empty normalized front, and all members of one group share it.  The
Reverse, Similar and Substring passes carry no such emptiness guard (see the
counterexample), so empty-normalizing pairs can still form those groups. -/
theorem exact_groups_nonempty_keys :
    ∀ d cards g, g ∈ (find_duplicates d cards).exact →
      ∃ k, k ≠ "" ∧ ∀ m ∈ g.cards, frontKey m.card = k := by
  intro d cards g hg
  obtain ⟨kg, hkg, hsome⟩ := List.mem_filterMap.mp hg
  have hinv := buildGroups_key_inv cards.enum [] (by intro kg h; cases h) kg hkg
  split at hsome
  · injection hsome with hsome
    subst hsome
    refine ⟨kg.1, hinv.1, ?_⟩
    intro m hm
    obtain ⟨u, hu, hum⟩ := List.mem_map.mp hm
    rw [← hum]
    exact hinv.2 u hu
  · cases hsome

/-- Counterexample to C2: on `deckRevSim` the single pair satisfies both the
reverse condition and the similar condition, yet `find_duplicates` emits only
the Reverse group — the `elif` chain suppresses the Similar group. -/
theorem reverse_suppresses_similar_counter :
    reverseCondition deckRevSim 0 1 = true ∧
    similarCondition defaultDetector deckRevSim 0 1 = true ∧
    (find_duplicates defaultDetector deckRevSim).reverse.length = 1 ∧
    (find_duplicates defaultDetector deckRevSim).similar = [] := by
  refine ⟨by decide, ?_, by decide, by decide⟩
  have hsim : calculate_similarity (frontAt deckRevSim 0) (frontAt deckRevSim 1)
      = 9/10 := by
    have := pyRatio_eval (frontAt deckRevSim 0).data (frontAt deckRevSim 1).data
      9 10 10 (by decide) (by decide) (by decide) (by decide)
    rw [calculate_similarity, this]
    norm_num
  simp only [similarCondition, Bool.and_eq_true, decide_eq_true_eq, hsim]
  refine ⟨⟨⟨by decide, by decide⟩, ?_⟩, ?_⟩ <;> norm_num [defaultDetector, DuplicateDetector.make]

/-- Counterexample to C5: two identical fronts longer than 10 characters do
produce a Substring group (Python `front1 in front2` holds for equal
strings), contradicting the claim's "and they are not identical" clause. -/
theorem substring_identical_counter :
    frontAt deckIdent 0 = frontAt deckIdent 1 ∧
    10 < (frontAt deckIdent 0).length ∧
    (find_duplicates defaultDetector deckIdent).substring ≠ [] := by
  decide

/-- Counterexample to C6: the similarity score is not symmetric. -/
theorem similarity_asymmetric_counter :
    calculate_similarity "aba" "babba" = 3/4 ∧
    calculate_similarity "babba" "aba" = 1/2 ∧
    calculate_similarity "aba" "babba" ≠ calculate_similarity "babba" "aba" := by
  have h1 : calculate_similarity "aba" "babba" = 3/4 := by
    have := pyRatio_eval "aba".data "babba".data 3 3 5
      (by decide) (by decide) (by decide) (by decide)
    rw [calculate_similarity, this]; norm_num
  have h2 : calculate_similarity "babba" "aba" = 1/2 := by
    have := pyRatio_eval "babba".data "aba".data 2 5 3
      (by decide) (by decide) (by decide) (by decide)
    rw [calculate_similarity, this]; norm_num
  refine ⟨h1, h2, ?_⟩
  rw [h1, h2]; norm_num

/-- Counterexample to C7: constructing the detector with threshold 3/2,
outside [0,1], succeeds and stores the value unchanged — the source
`__init__` performs no validation, raises no error, and does not clamp. -/
theorem threshold_not_validated_counter :
    (DuplicateDetector.make (3/2)).similarity_threshold = 3/2 ∧
    (1 : ℚ) < (DuplicateDetector.make (3/2)).similarity_threshold := by
  exact ⟨rfl, by norm_num [DuplicateDetector.make]⟩

/-- Counterexample to C8: a pair all four of whose texts normalize to the
empty string still yields a Reverse group (empty keys compare equal in the
reverse condition) and a Substring group (computed on raw fronts). -/
theorem empty_norm_groups_counter :
    normalize_text (frontAt deckEmptyNorm 0) = "" ∧
    normalize_text (frontAt deckEmptyNorm 1) = "" ∧
    normalize_text (backAt deckEmptyNorm 0) = "" ∧
    normalize_text (backAt deckEmptyNorm 1) = "" ∧
    (find_duplicates defaultDetector deckEmptyNorm).reverse.length = 1 ∧
    (find_duplicates defaultDetector deckEmptyNorm).substring.length = 1 := by
  decide

/-!
Concrete-run helper lemmas and witnesses.
-/

/-- The similar group computed on `deckSim`. -/
def simGroup : DupGroup :=
  ⟨"similar", [⟨0, mkCard "abcdefghij" "x", none⟩, ⟨1, mkCard "abcdefghik" "y", none⟩],
    some (9/10), "Similar front text"⟩

theorem deckSim_similar :
    (find_duplicates defaultDetector deckSim).similar = [simGroup] := by
  have hsim : calculate_similarity (frontAt deckSim 0) (frontAt deckSim 1) = 9/10 := by
    have := pyRatio_eval (frontAt deckSim 0).data (frontAt deckSim 1).data
      9 10 10 (by decide) (by decide) (by decide) (by decide)
    rw [calculate_similarity, this]
    norm_num
  have hcond : similarCondition defaultDetector deckSim 0 1 = true := by
    simp only [similarCondition, Bool.and_eq_true, decide_eq_true_eq, hsim]
    refine ⟨⟨⟨by decide, by decide⟩, ?_⟩, ?_⟩ <;>
      norm_num [defaultDetector, DuplicateDetector.make]
  have hpairs : allPairs deckSim.length = [(0, 1)] := by decide
  show (allPairs deckSim.length).filterMap (similarPair defaultDetector deckSim)
      = [simGroup]
  rw [hpairs]
  simp only [List.filterMap_cons, List.filterMap_nil]
  unfold similarPair
  rw [if_neg (by decide), if_pos (by exact hcond)]
  simp only [simGroup, hsim]
  rfl

theorem normalize_text_behavior_witness :
    (normalize_text "Ab  c.?").data.getLast? = some 'c' ∧
    isTrailPunct 'c' = false :=
  ⟨by decide, (normalize_text_behavior.1 "Ab  c.?").2.2.2.1 'c' (by decide)⟩

theorem similar_suppressed_by_reverse_witness :
    (∃ i j, simGroup.cards.map GroupMember.index = [i, j] ∧
      reverseCondition deckSim i j = false ∧
      similarCondition defaultDetector deckSim i j = true) ∧
    (∃ g ∈ (find_duplicates defaultDetector deckRevSim).reverse,
      g.cards.map GroupMember.index = [0, 1]) :=
  ⟨similar_suppressed_by_reverse.1 defaultDetector deckSim simGroup
      (by rw [deckSim_similar]; exact List.mem_singleton.mpr rfl),
   similar_suppressed_by_reverse.2 defaultDetector deckRevSim 0 1
      (by decide) (by decide) (by decide)⟩

theorem substring_characterization_witness :
    ∃ g ∈ (find_duplicates defaultDetector deckSub).substring,
      g.cards.map (fun m => (m.index, m.role)) =
        [(0, some "container"), (1, some "contained")] :=
  (substring_characterization defaultDetector deckSub 0 1
    (by decide) (by decide) (by decide) (by decide)).2.1 (by decide) (by decide)

/-- The exact group computed on `deckExact`. -/
def exactGroupE : DupGroup :=
  ⟨"exact_front", [⟨0, mkCard "dup" "a", none⟩, ⟨1, mkCard "dup" "b", none⟩],
    none, "Identical front text: \"dup\""⟩

theorem exact_groups_nonempty_keys_witness :
    ∃ k, k ≠ "" ∧ ∀ m ∈ exactGroupE.cards, frontKey m.card = k :=
  exact_groups_nonempty_keys defaultDetector deckExact exactGroupE (by decide)

/-!
Characterization of `apply_removals`.
-/

theorem removeAcc_fold_mem (suggs : List Suggestion) :
    ∀ (acc : List Nat) (i : Nat),
      i ∈ suggs.foldl removeAcc acc ↔ i ∈ acc ∨ i ∈ removeTargets suggs := by
  induction suggs with
  | nil =>
    intro acc i
    simp [removeTargets]
  | cons s rest ih =>
    intro acc i
    rw [List.foldl_cons]
    cases s with
    | removeS k r dof =>
      rw [ih]
      have hacc : i ∈ removeAcc acc (Suggestion.removeS k r dof) ↔
          i ∈ acc ∨ i = k := by
        simp only [removeAcc]
        split
        · rename_i hk
          constructor
          · exact Or.inl
          · rintro (h | h)
            · exact h
            · rw [h]; exact hk
        · simp [List.mem_append]
      have htgt : removeTargets (Suggestion.removeS k r dof :: rest)
          = k :: removeTargets rest := rfl
      rw [hacc, htgt, List.mem_cons]
      tauto
    | mergeReverseS idxs r =>
      rw [ih]
      have : removeTargets (Suggestion.mergeReverseS idxs r :: rest)
          = removeTargets rest := rfl
      rw [this]
      rfl
    | reviewS idxs sc r adv =>
      rw [ih]
      have : removeTargets (Suggestion.reviewS idxs sc r adv :: rest)
          = removeTargets rest := rfl
      rw [this]
      rfl

theorem keepAcc_fold_eq (R : List Nat) :
    ∀ (l : List (Nat × Card)) (out : List Card),
      l.foldl (keepAcc R) out
        = out ++ (l.filter (fun p => p.1 ∉ R)).map Prod.snd := by
  intro l
  induction l with
  | nil => intro out; simp
  | cons p rest ih =>
    intro out
    rw [List.foldl_cons]
    by_cases hp : p.1 ∈ R
    · rw [show keepAcc R out p = out from if_pos hp, ih,
        List.filter_cons_of_neg (by simpa using hp)]
    · rw [show keepAcc R out p = out ++ [p.2] from if_neg hp, ih,
        List.filter_cons_of_pos (by simpa using hp)]
      simp

theorem removeAcc_fold_filter (suggs : List Suggestion) :
    ∀ acc, (suggs.filter isRemove).foldl removeAcc acc = suggs.foldl removeAcc acc := by
  induction suggs with
  | nil => intro acc; rfl
  | cons s rest ih =>
    intro acc
    cases s with
    | removeS k r dof =>
      rw [List.filter_cons_of_pos (by rfl), List.foldl_cons, List.foldl_cons, ih]
    | mergeReverseS idxs r =>
      rw [List.filter_cons_of_neg (by simp [isRemove]), List.foldl_cons, ih]
      rfl
    | reviewS idxs sc r adv =>
      rw [List.filter_cons_of_neg (by simp [isRemove]), List.foldl_cons, ih]
      rfl

/-- C9: `apply_removals` returns exactly the original sequence minus the
`remove`-targeted positions, in order and with each retained card unchanged
(it is the enumeration filtered on non-targeted positions); and suggestions
whose action is `merge_reverse` or `review` never cause a drop — filtering
the suggestion list down to its `remove` entries leaves the result
unchanged. -/
theorem apply_removals_spec :
    ∀ (cards : List Card) (suggs : List Suggestion),
      apply_removals cards suggs
        = (cards.enum.filter (fun p => p.1 ∉ removeTargets suggs)).map Prod.snd ∧
      apply_removals cards (suggs.filter isRemove) = apply_removals cards suggs := by
  intro cards suggs
  constructor
  · show cards.enum.foldl (keepAcc (suggs.foldl removeAcc [])) []
        = (cards.enum.filter (fun p => p.1 ∉ removeTargets suggs)).map Prod.snd
    rw [keepAcc_fold_eq, List.nil_append]
    congr 1
    apply List.filter_congr
    intro p hp
    have := removeAcc_fold_mem suggs [] p.1
    simp only [List.not_mem_nil, false_or] at this
    simp only [decide_eq_decide]
    rw [this]
  · show cards.enum.foldl (keepAcc ((suggs.filter isRemove).foldl removeAcc [])) []
        = cards.enum.foldl (keepAcc (suggs.foldl removeAcc [])) []
    rw [removeAcc_fold_filter]

/-!
Full characterization of the exact-grouping association list: the bucket of
each key is exactly the (order-preserving) filter of the enumerated input on
that normalized front, keys are distinct and non-empty, and every non-empty
key that occurs in the processed input owns a bucket.
-/

/-- Invariant relating an association-list state to the already-processed
enumerated cards. -/
def GInv (done : List (Nat × Card))
    (gs : List (String × List (Nat × Card))) : Prop :=
  (gs.map Prod.fst).Nodup ∧
  (∀ kg ∈ gs, kg.1 ≠ "" ∧ kg.2 = done.filter (fun q => frontKey q.2 = kg.1)) ∧
  (∀ q ∈ done, frontKey q.2 ≠ "" → ∃ gl, (frontKey q.2, gl) ∈ gs)

theorem addToGroups_keys (gs : List (String × List (Nat × Card)))
    (key : String) (v : Nat × Card) :
    (addToGroups gs key v).map Prod.fst =
      if key ∈ gs.map Prod.fst then gs.map Prod.fst
      else gs.map Prod.fst ++ [key] := by
  induction gs with
  | nil => simp [addToGroups]
  | cons kg0 gs ih =>
    obtain ⟨k0, vs0⟩ := kg0
    rw [addToGroups]
    by_cases hk : k0 = key
    · subst hk
      rw [if_pos rfl]
      simp
    · rw [if_neg hk]
      simp only [List.map_cons, ih, List.mem_cons]
      by_cases hmem : key ∈ gs.map Prod.fst
      · rw [if_pos hmem, if_pos (Or.inr hmem)]
      · rw [if_neg hmem, if_neg (by
          rintro (h | h)
          · exact hk h.symm
          · exact hmem h)]
        rfl

theorem addToGroups_find {gs : List (String × List (Nat × Card))}
    {key : String} {v : Nat × Card} {k : String} {gl : List (Nat × Card)}
    (h : (k, gl) ∈ gs) : ∃ gl', (k, gl') ∈ addToGroups gs key v := by
  induction gs with
  | nil => cases h
  | cons kg0 gs ih =>
    obtain ⟨k0, vs0⟩ := kg0
    rw [addToGroups]
    by_cases hk : k0 = key
    · rw [if_pos hk]
      rcases List.mem_cons.mp h with h' | h'
      · injection h' with h1 h2
        subst h1
        exact ⟨vs0 ++ [v], List.mem_cons_self _ _⟩
      · exact ⟨gl, List.mem_cons_of_mem _ h'⟩
    · rw [if_neg hk]
      rcases List.mem_cons.mp h with h' | h'
      · injection h' with h1 h2
        subst h1; subst h2
        exact ⟨gl, List.mem_cons_self _ _⟩
      · obtain ⟨gl', hgl'⟩ := ih h'
        exact ⟨gl', List.mem_cons_of_mem _ hgl'⟩

theorem addToGroups_self (gs : List (String × List (Nat × Card)))
    (key : String) (v : Nat × Card) :
    ∃ gl, (key, gl) ∈ addToGroups gs key v := by
  induction gs with
  | nil => exact ⟨[v], List.mem_singleton.mpr rfl⟩
  | cons kg0 gs ih =>
    obtain ⟨k0, vs0⟩ := kg0
    rw [addToGroups]
    by_cases hk : k0 = key
    · subst hk
      rw [if_pos rfl]
      exact ⟨vs0 ++ [v], List.mem_cons_self _ _⟩
    · rw [if_neg hk]
      obtain ⟨gl, hgl⟩ := ih
      exact ⟨gl, List.mem_cons_of_mem _ hgl⟩

theorem addToGroups_buckets {gs : List (String × List (Nat × Card))}
    {key : String} {v : Nat × Card} {done : List (Nat × Card)}
    (hnodup : (gs.map Prod.fst).Nodup)
    (hbuckets : ∀ kg ∈ gs, kg.1 ≠ "" ∧
      kg.2 = done.filter (fun q => frontKey q.2 = kg.1))
    (hkey : key ≠ "") (hv : frontKey v.2 = key)
    (habsent : key ∉ gs.map Prod.fst →
      done.filter (fun q => frontKey q.2 = key) = []) :
    ∀ kg ∈ addToGroups gs key v, kg.1 ≠ "" ∧
      kg.2 = (done ++ [v]).filter (fun q => frontKey q.2 = kg.1) := by
  induction gs with
  | nil =>
    intro kg hkg
    simp only [addToGroups, List.mem_singleton] at hkg
    subst hkg
    refine ⟨hkey, ?_⟩
    rw [List.filter_append, habsent (by simp)]
    simp [hv]
  | cons kg0 gs ih =>
    intro kg hkg
    obtain ⟨k0, vs0⟩ := kg0
    have h0 := hbuckets (k0, vs0) (List.mem_cons_self _ _)
    have hnodup' : (gs.map Prod.fst).Nodup := (List.nodup_cons.mp hnodup).2
    have hk0notin : k0 ∉ gs.map Prod.fst := (List.nodup_cons.mp hnodup).1
    rw [addToGroups] at hkg
    by_cases hk : k0 = key
    · subst hk
      rw [if_pos rfl] at hkg
      rcases List.mem_cons.mp hkg with h' | h'
      · subst h'
        refine ⟨h0.1, ?_⟩
        rw [List.filter_append]
        simp only [List.filter_cons, List.filter_nil, hv]
        rw [if_pos (by simp)]
        rw [← h0.2]
      · have hb := hbuckets kg (List.mem_cons_of_mem _ h')
        refine ⟨hb.1, ?_⟩
        rw [List.filter_append]
        have hne : frontKey v.2 ≠ kg.1 := by
          rw [hv]
          intro hcontra
          exact hk0notin (hcontra ▸ List.mem_map_of_mem Prod.fst h')
        simp only [List.filter_cons, List.filter_nil]
        rw [if_neg (by simpa using hne)]
        rw [List.append_nil]
        exact hb.2
    · rw [if_neg hk] at hkg
      rcases List.mem_cons.mp hkg with h' | h'
      · subst h'
        refine ⟨h0.1, ?_⟩
        rw [List.filter_append]
        simp only [List.filter_cons, List.filter_nil]
        rw [if_neg (by simpa using (hv ▸ fun hcontra => hk hcontra.symm :
          ¬frontKey v.2 = k0))]
        rw [List.append_nil]
        exact h0.2
      · exact ih hnodup'
          (fun kg' hkg' => hbuckets kg' (List.mem_cons_of_mem _ hkg'))
          (fun hnot => habsent (by
            simp only [List.map_cons, List.mem_cons]
            rintro (h | h)
            · exact hk h.symm
            · exact hnot h))
          kg h'

theorem buildGroups_inv :
    ∀ (l : List (Nat × Card)) (done : List (Nat × Card))
      (gs : List (String × List (Nat × Card))),
      GInv done gs → GInv (done ++ l) (buildGroups l gs) := by
  intro l
  induction l with
  | nil =>
    intro done gs h
    simpa [buildGroups] using h
  | cons p rest ih =>
    intro done gs h
    obtain ⟨hnodup, hbuckets, hexists⟩ := h
    rw [buildGroups]
    have hassoc : done ++ p :: rest = (done ++ [p]) ++ rest := by simp
    rw [hassoc]
    by_cases hkey : frontKey p.2 = ""
    · rw [if_pos hkey]
      apply ih
      refine ⟨hnodup, ?_, ?_⟩
      · intro kg hkg
        have hb := hbuckets kg hkg
        refine ⟨hb.1, ?_⟩
        rw [List.filter_append]
        simp only [List.filter_cons, List.filter_nil]
        rw [if_neg (by simpa using (hkey ▸ fun hcontra => hb.1 hcontra.symm :
          ¬frontKey p.2 = kg.1))]
        rw [List.append_nil]
        exact hb.2
      · intro q hq hqkey
        rcases List.mem_append.mp hq with h' | h'
        · exact hexists q h' hqkey
        · rw [List.mem_singleton] at h'
          subst h'
          exact absurd hkey hqkey
    · rw [if_neg hkey]
      apply ih
      refine ⟨?_, ?_, ?_⟩
      · rw [addToGroups_keys]
        split
        · exact hnodup
        · rename_i hnot
          rw [List.nodup_append]
          exact ⟨hnodup, List.nodup_singleton _, by simpa using hnot⟩
      · exact addToGroups_buckets hnodup hbuckets hkey rfl
          (fun hnot => by
            rw [List.filter_eq_nil_iff]
            intro q hq
            simp only [decide_eq_true_eq]
            intro hqk
            obtain ⟨gl, hgl⟩ := hexists q hq (by rw [hqk]; exact hkey)
            rw [hqk] at hgl
            exact hnot (List.mem_map_of_mem Prod.fst hgl))
      · intro q hq hqkey
        rcases List.mem_append.mp hq with h' | h'
        · obtain ⟨gl, hgl⟩ := hexists q h' hqkey
          exact addToGroups_find hgl
        · rw [List.mem_singleton] at h'
          subst h'
          exact addToGroups_self gs (frontKey q.2) q

/-- The bucket structure of `front_groups`. -/
theorem front_groups_char (cards : List Card) :
    GInv cards.enum (front_groups cards) := by
  have := buildGroups_inv cards.enum [] [] ⟨List.nodup_nil, ?_, ?_⟩
  · simpa using this
  · intro kg hkg; cases hkg
  · intro q hq; cases hq

/-!
Behaviour of the suggestion-generation folds.
-/

theorem removeTargets_append (l1 l2 : List Suggestion) :
    removeTargets (l1 ++ l2) = removeTargets l1 ++ removeTargets l2 :=
  List.filterMap_append l1 l2 _

theorem exactInner_fold_target_inv (r : String) (k : GroupMember) :
    ∀ (t : List GroupMember) (st : List Suggestion × List Nat),
      removeTargets st.1 = st.2 → st.2.Nodup →
      removeTargets ((t.foldl (exactInner r k) st).1)
          = (t.foldl (exactInner r k) st).2 ∧
        (t.foldl (exactInner r k) st).2.Nodup := by
  intro t
  induction t with
  | nil => intro st h1 h2; exact ⟨h1, h2⟩
  | cons m t ih =>
    intro st h1 h2
    rw [List.foldl_cons]
    by_cases hm : m.index ∈ st.2
    · rw [show exactInner r k st m = st from if_pos hm]
      exact ih st h1 h2
    · rw [show exactInner r k st m
          = (st.1 ++ [Suggestion.removeS m.index r k.index], st.2 ++ [m.index])
        from if_neg hm]
      apply ih
      · rw [removeTargets_append, h1]
        rfl
      · rw [List.nodup_append]
        exact ⟨h2, List.nodup_singleton _, by simpa using hm⟩

theorem exactInner_fold_mem2 (r : String) (k : GroupMember) :
    ∀ (t : List GroupMember) (st : List Suggestion × List Nat) (i : Nat),
      i ∈ (t.foldl (exactInner r k) st).2 ↔
        i ∈ st.2 ∨ ∃ m ∈ t, m.index = i := by
  intro t
  induction t with
  | nil => intro st i; simp
  | cons m t ih =>
    intro st i
    rw [List.foldl_cons, ih]
    by_cases hm : m.index ∈ st.2
    · rw [show exactInner r k st m = st from if_pos hm]
      simp only [List.mem_cons]
      constructor
      · rintro (h | ⟨m', hm', hi⟩)
        · exact Or.inl h
        · exact Or.inr ⟨m', Or.inr hm', hi⟩
      · rintro (h | ⟨m', hm' | hm', hi⟩)
        · exact Or.inl h
        · subst hm'; subst hi; exact Or.inl hm
        · exact Or.inr ⟨m', hm', hi⟩
    · rw [show exactInner r k st m
          = (st.1 ++ [Suggestion.removeS m.index r k.index], st.2 ++ [m.index])
        from if_neg hm]
      simp only [List.mem_append, List.mem_singleton, List.mem_cons,
        List.not_mem_nil, or_false]
      constructor
      · rintro ((h | h) | ⟨m', hm', hi⟩)
        · exact Or.inl h
        · exact Or.inr ⟨m, Or.inl rfl, h.symm⟩
        · exact Or.inr ⟨m', Or.inr hm', hi⟩
      · rintro (h | ⟨m', hm' | hm', hi⟩)
        · exact Or.inl (Or.inl h)
        · subst hm'; exact Or.inl (Or.inr hi.symm)
        · exact Or.inr ⟨m', hm', hi⟩

theorem exactInner_fold_mem1 (r : String) (k : GroupMember) :
    ∀ (t : List GroupMember) (st : List Suggestion × List Nat) (s : Suggestion),
      s ∈ (t.foldl (exactInner r k) st).1 →
        s ∈ st.1 ∨ ∃ m ∈ t, s = Suggestion.removeS m.index r k.index := by
  intro t
  induction t with
  | nil => intro st s h; exact Or.inl h
  | cons m t ih =>
    intro st s h
    rw [List.foldl_cons] at h
    by_cases hm : m.index ∈ st.2
    · rw [show exactInner r k st m = st from if_pos hm] at h
      rcases ih st s h with h' | ⟨m', hm', hs⟩
      · exact Or.inl h'
      · exact Or.inr ⟨m', List.mem_cons_of_mem _ hm', hs⟩
    · rw [show exactInner r k st m
          = (st.1 ++ [Suggestion.removeS m.index r k.index], st.2 ++ [m.index])
        from if_neg hm] at h
      rcases ih _ s h with h' | ⟨m', hm', hs⟩
      · rcases List.mem_append.mp h' with h'' | h''
        · exact Or.inl h''
        · rw [List.mem_singleton] at h''
          exact Or.inr ⟨m, List.mem_cons_self _ _, h''⟩
      · exact Or.inr ⟨m', List.mem_cons_of_mem _ hm', hs⟩

theorem exactStep_fold_target_inv :
    ∀ (groups : List DupGroup) (st : List Suggestion × List Nat),
      removeTargets st.1 = st.2 → st.2.Nodup →
      removeTargets ((groups.foldl exactStep st).1)
          = (groups.foldl exactStep st).2 ∧
        (groups.foldl exactStep st).2.Nodup := by
  intro groups
  induction groups with
  | nil => intro st h1 h2; exact ⟨h1, h2⟩
  | cons g groups ih =>
    intro st h1 h2
    rw [List.foldl_cons]
    cases hg : g.cards with
    | nil =>
      rw [show exactStep st g = st from by rw [exactStep, hg]]
      exact ih st h1 h2
    | cons keep rest =>
      rw [show exactStep st g = rest.foldl (exactInner g.reason keep) st
        from by rw [exactStep, hg]]
      obtain ⟨h1', h2'⟩ := exactInner_fold_target_inv g.reason keep rest st h1 h2
      exact ih _ h1' h2'

theorem exactStep_fold_mem2 :
    ∀ (groups : List DupGroup) (st : List Suggestion × List Nat) (i : Nat),
      i ∈ (groups.foldl exactStep st).2 ↔
        i ∈ st.2 ∨ ∃ g ∈ groups, ∃ keep rest, g.cards = keep :: rest ∧
          ∃ m ∈ rest, m.index = i := by
  intro groups
  induction groups with
  | nil => intro st i; simp
  | cons g groups ih =>
    intro st i
    rw [List.foldl_cons, ih]
    cases hg : g.cards with
    | nil =>
      rw [show exactStep st g = st from by rw [exactStep, hg]]
      simp only [List.mem_cons]
      constructor
      · rintro (h | ⟨g', hg', rest'⟩)
        · exact Or.inl h
        · exact Or.inr ⟨g', Or.inr hg', rest'⟩
      · rintro (h | ⟨g', hg' | hg', keep', rest', hcards, hrest⟩)
        · exact Or.inl h
        · subst hg'
          rw [hg] at hcards
          cases hcards
        · exact Or.inr ⟨g', hg', keep', rest', hcards, hrest⟩
    | cons keep rest =>
      rw [show exactStep st g = rest.foldl (exactInner g.reason keep) st
        from by rw [exactStep, hg]]
      rw [exactInner_fold_mem2]
      simp only [List.mem_cons]
      constructor
      · rintro ((h | ⟨m, hm, hi⟩) | ⟨g', hg', keep', rest', hcards, hrest⟩)
        · exact Or.inl h
        · exact Or.inr ⟨g, Or.inl rfl, keep, rest, hg, m, hm, hi⟩
        · exact Or.inr ⟨g', Or.inr hg', keep', rest', hcards, hrest⟩
      · rintro (h | ⟨g', hg' | hg', keep', rest', hcards, hrest⟩)
        · exact Or.inl (Or.inl h)
        · subst hg'
          rw [hg] at hcards
          injection hcards with hk hr
          subst hk; subst hr
          exact Or.inl (Or.inr hrest)
        · exact Or.inr ⟨g', hg', keep', rest', hcards, hrest⟩

theorem exactStep_fold_mem1 :
    ∀ (groups : List DupGroup) (st : List Suggestion × List Nat) (s : Suggestion),
      s ∈ (groups.foldl exactStep st).1 →
        s ∈ st.1 ∨ ∃ g ∈ groups, ∃ keep rest, g.cards = keep :: rest ∧
          ∃ m ∈ rest, s = Suggestion.removeS m.index g.reason keep.index := by
  intro groups
  induction groups with
  | nil => intro st s h; exact Or.inl h
  | cons g groups ih =>
    intro st s h
    rw [List.foldl_cons] at h
    cases hg : g.cards with
    | nil =>
      rw [show exactStep st g = st from by rw [exactStep, hg]] at h
      rcases ih st s h with h' | ⟨g', hg', rest'⟩
      · exact Or.inl h'
      · exact Or.inr ⟨g', List.mem_cons_of_mem _ hg', rest'⟩
    | cons keep rest =>
      rw [show exactStep st g = rest.foldl (exactInner g.reason keep) st
        from by rw [exactStep, hg]] at h
      rcases ih _ s h with h' | ⟨g', hg', rest'⟩
      · rcases exactInner_fold_mem1 g.reason keep rest st s h' with h'' | ⟨m, hm, hs⟩
        · exact Or.inl h''
        · exact Or.inr ⟨g, List.mem_cons_self _ _, keep, rest, hg, m, hm, hs⟩
      · exact Or.inr ⟨g', List.mem_cons_of_mem _ hg', rest'⟩

/-- What a non-removing pass (the reverse, similar and substring passes)
preserves: the removed set, the remove targets, and the set of `remove`
suggestions. -/
def PreservesRemoves
    (step : (List Suggestion × List Nat) → DupGroup →
      (List Suggestion × List Nat)) : Prop :=
  ∀ st g, (step st g).2 = st.2 ∧
    removeTargets (step st g).1 = removeTargets st.1 ∧
    ∀ i r dof, Suggestion.removeS i r dof ∈ (step st g).1 →
      Suggestion.removeS i r dof ∈ st.1

theorem preservesRemoves_fold {step} (hstep : PreservesRemoves step) :
    ∀ (groups : List DupGroup) (st : List Suggestion × List Nat),
      (groups.foldl step st).2 = st.2 ∧
      removeTargets (groups.foldl step st).1 = removeTargets st.1 ∧
      ∀ i r dof, Suggestion.removeS i r dof ∈ (groups.foldl step st).1 →
        Suggestion.removeS i r dof ∈ st.1 := by
  intro groups
  induction groups with
  | nil => intro st; exact ⟨rfl, rfl, fun _ _ _ h => h⟩
  | cons g groups ih =>
    intro st
    rw [List.foldl_cons]
    obtain ⟨ha, hb, hc⟩ := ih (step st g)
    obtain ⟨ha', hb', hc'⟩ := hstep st g
    exact ⟨ha.trans ha', hb.trans hb', fun i r dof h => hc' i r dof (hc i r dof h)⟩

theorem append_one_nonremove (l : List Suggestion) (s : Suggestion)
    (hs : isRemove s = false) :
    removeTargets (l ++ [s]) = removeTargets l ∧
    ∀ i r dof, Suggestion.removeS i r dof ∈ l ++ [s] →
      Suggestion.removeS i r dof ∈ l := by
  constructor
  · rw [removeTargets_append]
    have : removeTargets [s] = [] := by
      cases s with
      | removeS i r dof => cases hs
      | mergeReverseS idxs r => rfl
      | reviewS idxs sc r adv => rfl
    rw [this, List.append_nil]
  · intro i r dof h
    rcases List.mem_append.mp h with h' | h'
    · exact h'
    · rw [List.mem_singleton] at h'
      rw [← h'] at hs
      cases hs

theorem reverseStep_preserves : PreservesRemoves reverseStep := by
  intro st g
  rw [reverseStep]
  split
  · split
    · exact ⟨rfl, append_one_nonremove st.1 _ rfl⟩
    · exact ⟨rfl, rfl, fun _ _ _ h => h⟩
  · exact ⟨rfl, rfl, fun _ _ _ h => h⟩

theorem similarStep_preserves : PreservesRemoves similarStep := by
  intro st g
  rw [similarStep]
  split
  · split
    · exact ⟨rfl, append_one_nonremove st.1 _ rfl⟩
    · exact ⟨rfl, rfl, fun _ _ _ h => h⟩
  · exact ⟨rfl, rfl, fun _ _ _ h => h⟩

theorem substringStep_preserves : PreservesRemoves substringStep := by
  intro st g
  rw [substringStep]
  split
  · split
    · exact ⟨rfl, append_one_nonremove st.1 _ rfl⟩
    · exact ⟨rfl, rfl, fun _ _ _ h => h⟩
  · exact ⟨rfl, rfl, fun _ _ _ h => h⟩

/-- The state after the exact pass of `generate_removal_suggestions`. -/
def exactState (dup : DupResult) : List Suggestion × List Nat :=
  dup.exact.foldl exactStep ([], [])

theorem suggs_reduce_to_exact (dup : DupResult) :
    removeTargets (generate_removal_suggestions dup) = (exactState dup).2 ∧
    (exactState dup).2.Nodup ∧
    ∀ i r dof, Suggestion.removeS i r dof ∈ generate_removal_suggestions dup →
      Suggestion.removeS i r dof ∈ (exactState dup).1 := by
  have hexact := exactStep_fold_target_inv dup.exact ([], []) rfl List.nodup_nil
  have h2 := preservesRemoves_fold reverseStep_preserves dup.reverse (exactState dup)
  have h3 := preservesRemoves_fold similarStep_preserves dup.similar
    (dup.reverse.foldl reverseStep (exactState dup))
  have h4 := preservesRemoves_fold substringStep_preserves dup.substring
    (dup.similar.foldl similarStep (dup.reverse.foldl reverseStep (exactState dup)))
  have hst : dup.exact.foldl exactStep ([], []) = exactState dup := rfl
  refine ⟨?_, hexact.2, ?_⟩
  · simp only [generate_removal_suggestions]
    rw [hst, h4.2.1, h3.2.1, h2.2.1]
    exact hexact.1
  · intro i r dof h
    simp only [generate_removal_suggestions] at h
    rw [hst] at h
    exact h2.2.2 i r dof (h3.2.2 i r dof (h4.2.2 i r dof h))

/-!
Facts about enumerated positions and the exact-group structure.
-/

theorem mem_enum_get {cards : List Card} {p : Nat × Card}
    (hp : p ∈ cards.enum) : cards.get? p.1 = some p.2 := by
  obtain ⟨i, c⟩ := p
  rw [List.mk_mem_enum_iff_getElem?] at hp
  rw [List.get?_eq_getElem?]
  exact hp

theorem mem_enum_lt {cards : List Card} {p : Nat × Card}
    (hp : p ∈ cards.enum) : p.1 < cards.length := by
  have := mem_enum_get hp
  rw [List.get?_eq_some] at this
  exact this.1

theorem enum_functional {cards : List Card} {i : Nat} {c1 c2 : Card}
    (h1 : (i, c1) ∈ cards.enum) (h2 : (i, c2) ∈ cards.enum) : c1 = c2 := by
  have g1 := mem_enum_get h1
  have g2 := mem_enum_get h2
  rw [g1] at g2
  injection g2

theorem enum_mem_of_get {cards : List Card} {i : Nat} {c : Card}
    (h : cards.get? i = some c) : (i, c) ∈ cards.enum := by
  rw [List.mk_mem_enum_iff_getElem?, ← List.get?_eq_getElem?]
  exact h

/-- Decomposition of a membership in the exact-group list. -/
theorem exactGroups_mem {cards : List Card} {g : DupGroup}
    (hg : g ∈ exactGroups cards) :
    ∃ k gl, (k, gl) ∈ front_groups cards ∧ 1 < gl.length ∧
      g.cards = gl.map (fun p => ⟨p.1, p.2, none⟩) := by
  obtain ⟨kg, hkg, hsome⟩ := List.mem_filterMap.mp hg
  split at hsome
  · injection hsome with hsome
    subst hsome
    exact ⟨kg.1, kg.2, hkg, by assumption, rfl⟩
  · cases hsome

/-- C4: the indices targeted by `remove` suggestions are pairwise distinct
(no index is targeted twice, hence no index appears in more than one
`remove` suggestion) and all lie within the valid input range. -/
theorem remove_targets_valid :
    ∀ (d : DuplicateDetector) (cards : List Card),
      (removeTargets (generate_removal_suggestions (find_duplicates d cards))).Nodup ∧
      ∀ i ∈ removeTargets (generate_removal_suggestions (find_duplicates d cards)),
        i < cards.length := by
  intro d cards
  obtain ⟨htargets, hnodup, -⟩ := suggs_reduce_to_exact (find_duplicates d cards)
  constructor
  · rw [htargets]
    exact hnodup
  · intro i hi
    rw [htargets, exactState, exactStep_fold_mem2] at hi
    rcases hi with h | ⟨g, hg, keep, rest, hcards, m, hm, hidx⟩
    · cases h
    · obtain ⟨k, gl, hkg, hlen, hgcards⟩ := exactGroups_mem hg
      have hmem : m ∈ g.cards := by
        rw [hcards]
        exact List.mem_cons_of_mem _ hm
      rw [hgcards] at hmem
      obtain ⟨p, hp, hpm⟩ := List.mem_map.mp hmem
      have hbucket := ((front_groups_char cards).2.1 (k, gl) hkg).2
      have hpfilter : p ∈ cards.enum.filter
          (fun q => decide (frontKey q.2 = (k, gl).1)) := by
        rw [← hbucket]
        exact hp
      have hpenum : p ∈ cards.enum := List.mem_of_mem_filter hpfilter
      have : m.index = p.1 := by rw [← hpm]
      rw [← hidx, this]
      exact mem_enum_lt hpenum

theorem enum_pairwise (cards : List Card) :
    cards.enum.Pairwise (fun p q => p.1 < q.1) := by
  rw [List.pairwise_iff_getElem]
  intro i j hi hj hij
  rw [List.getElem_enum, List.getElem_enum]
  exact hij

theorem bucket_pairwise {cards : List Card} {k : String} {gl : List (Nat × Card)}
    (h : (k, gl) ∈ front_groups cards) :
    gl.Pairwise (fun p q => p.1 < q.1) := by
  have hbucket : gl = cards.enum.filter (fun q => frontKey q.2 = k) := by
    simpa using ((front_groups_char cards).2.1 (k, gl) h).2
  rw [hbucket]
  exact (enum_pairwise cards).sublist (List.filter_sublist _)

theorem bucket_subset_enum {cards : List Card} {k : String} {gl : List (Nat × Card)}
    (h : (k, gl) ∈ front_groups cards) : ∀ p ∈ gl, p ∈ cards.enum ∧ frontKey p.2 = k := by
  intro p hp
  have hbucket : gl = cards.enum.filter (fun q => frontKey q.2 = k) := by
    simpa using ((front_groups_char cards).2.1 (k, gl) h).2
  rw [hbucket] at hp
  have := List.mem_filter.mp hp
  exact ⟨this.1, by simpa using this.2⟩

theorem bucket_unique {cards : List Card} {k : String}
    {gl gl' : List (Nat × Card)}
    (h : (k, gl) ∈ front_groups cards) (h' : (k, gl') ∈ front_groups cards) :
    gl = gl' := by
  have hb : gl = cards.enum.filter (fun q => frontKey q.2 = k) := by
    simpa using ((front_groups_char cards).2.1 (k, gl) h).2
  have hb' : gl' = cards.enum.filter (fun q => frontKey q.2 = k) := by
    simpa using ((front_groups_char cards).2.1 (k, gl') h').2
  rw [hb, hb']

/-- C10: the `duplicate_of` index cited by any `remove` suggestion (the kept
first member of its Exact group) is itself never the target of a `remove`
suggestion, and that kept record survives into the cleaned sequence. -/
theorem duplicate_of_never_removed :
    ∀ (d : DuplicateDetector) (cards : List Card) (i : Nat) (r : String) (dof : Nat),
      Suggestion.removeS i r dof ∈
        generate_removal_suggestions (find_duplicates d cards) →
      dof ∉ removeTargets (generate_removal_suggestions (find_duplicates d cards)) ∧
      ∃ c, cards.get? dof = some c ∧
        c ∈ apply_removals cards
          (generate_removal_suggestions (find_duplicates d cards)) := by
  intro d cards i r dof hs
  obtain ⟨htargets, -, hprov⟩ := suggs_reduce_to_exact (find_duplicates d cards)
  have hs1 := hprov i r dof hs
  rw [exactState] at hs1
  rcases exactStep_fold_mem1 _ _ _ hs1 with h | ⟨g, hg, keep, rest, hcards, m, hm, heq⟩
  · cases h
  · injection heq with hi hr hdof
    subst hdof
    obtain ⟨k, gl, hkg, hlen, hgcards⟩ := exactGroups_mem hg
    rw [hgcards] at hcards
    cases hglshape : gl with
    | nil => rw [hglshape] at hcards; cases hcards
    | cons q qt =>
      rw [hglshape] at hcards
      simp only [List.map_cons, List.cons.injEq] at hcards
      obtain ⟨hkeep, hrest⟩ := hcards
      have hkeepidx : keep.index = q.1 := by rw [← hkeep]
      have hq : q ∈ gl := by rw [hglshape]; exact List.mem_cons_self _ _
      obtain ⟨hqenum, hqkey⟩ := bucket_subset_enum hkg q hq
      -- the head of a bucket has the least index
      have hhead : ∀ e ∈ qt, q.1 < e.1 := by
        have := bucket_pairwise hkg
        rw [hglshape, List.pairwise_cons] at this
        exact this.1
      have hnotin : keep.index ∉
          removeTargets (generate_removal_suggestions (find_duplicates d cards)) := by
        intro hcontra
        rw [htargets, exactState, exactStep_fold_mem2] at hcontra
        rcases hcontra with h | ⟨g', hg', keep', rest', hcards', m', hm', hidx'⟩
        · cases h
        · obtain ⟨k', gl', hkg', hlen', hgcards'⟩ := exactGroups_mem hg'
          rw [hgcards'] at hcards'
          cases hglshape' : gl' with
          | nil => rw [hglshape'] at hcards'; cases hcards'
          | cons q' qt' =>
            rw [hglshape'] at hcards'
            simp only [List.map_cons, List.cons.injEq] at hcards'
            obtain ⟨hkeep', hrest'⟩ := hcards'
            have hm'mem : m' ∈ qt'.map (fun p => (⟨p.1, p.2, none⟩ : GroupMember)) := by
              rw [hrest']
              exact hm'
            obtain ⟨e', he', he'm⟩ := List.mem_map.mp hm'mem
            have he'idx : m'.index = e'.1 := by rw [← he'm]
            have he'gl : e' ∈ gl' := by
              rw [hglshape']
              exact List.mem_cons_of_mem _ he'
            obtain ⟨he'enum, he'key⟩ := bucket_subset_enum hkg' e' he'gl
            -- same original index: the entries coincide, hence the keys do
            have hidxeq : e'.1 = q.1 := by
              rw [← he'idx, hidx', hkeepidx]
            have hcardeq : e'.2 = q.2 := by
              have h1 : (e'.1, e'.2) ∈ cards.enum := he'enum
              have h2 : (e'.1, q.2) ∈ cards.enum := by
                rw [hidxeq]
                exact hqenum
              exact enum_functional h1 h2
            have hkeyeq : k' = k := by
              rw [← he'key, ← hqkey, hcardeq]
            rw [hkeyeq] at hkg'
            have hgleq : gl = gl' := bucket_unique hkg hkg'
            -- but then e' sits in the tail of its own bucket while sharing
            -- the head's index, contradicting strictly increasing indices
            have : q.1 < e'.1 := by
              apply hhead
              have hqt : qt = qt' := by
                have hx := hgleq
                rw [hglshape, hglshape'] at hx
                injection hx with h1 h2
              rw [hqt]
              exact he'
            omega
      refine ⟨hnotin, ?_⟩
      refine ⟨q.2, by rw [hkeepidx]; exact mem_enum_get hqenum, ?_⟩
      show q.2 ∈ cards.enum.foldl
        (keepAcc ((generate_removal_suggestions (find_duplicates d cards)).foldl
          removeAcc [])) []
      rw [keepAcc_fold_eq, List.nil_append]
      apply List.mem_map_of_mem Prod.snd
      rw [List.mem_filter]
      refine ⟨hqenum, ?_⟩
      simp only [decide_eq_true_eq]
      intro hcontra
      rw [removeAcc_fold_mem] at hcontra
      rcases hcontra with h | h
      · cases h
      · rw [← hkeepidx] at h
        exact hnotin h

/-!
Idempotence of removal.
-/

theorem two_mem_length {α : Type} {l : List α} {x y : α}
    (hx : x ∈ l) (hy : y ∈ l) (hxy : x ≠ y) : 1 < l.length := by
  cases l with
  | nil => cases hx
  | cons a t =>
    cases t with
    | nil =>
      rw [List.mem_singleton] at hx hy
      exact absurd (hx.trans hy.symm) hxy
    | cons b t' => simp

/-- C3: dropping every `remove`-targeted index and re-running
`find_duplicates` yields zero Exact groups. -/
theorem removal_idempotent :
    ∀ (d : DuplicateDetector) (cards : List Card),
      (find_duplicates d
        (apply_removals cards
          (generate_removal_suggestions (find_duplicates d cards)))).exact = [] := by
  intro d cards
  set suggs := generate_removal_suggestions (find_duplicates d cards) with hsuggs
  set R := suggs.foldl removeAcc [] with hR
  set F := cards.enum.filter (fun p => decide (p.1 ∉ R)) with hF
  have hclean : apply_removals cards suggs = F.map Prod.snd := by
    show cards.enum.foldl (keepAcc (suggs.foldl removeAcc [])) [] = F.map Prod.snd
    rw [keepAcc_fold_eq, List.nil_append]
  set cleaned := apply_removals cards suggs with hcleaned
  show exactGroups cleaned = []
  rw [exactGroups, List.filterMap_eq_nil_iff]
  intro kg hkg
  rw [if_neg]
  intro hlen
  -- a bucket of the re-run with two members
  obtain ⟨a, t, hat⟩ := List.exists_cons_of_ne_nil
    (show kg.2 ≠ [] by intro h; rw [h] at hlen; cases hlen)
  obtain ⟨b, t', hbt⟩ := List.exists_cons_of_ne_nil
    (show t ≠ [] by
      intro h
      rw [hat, h] at hlen
      simp at hlen)
  have ha : a ∈ kg.2 := by rw [hat]; exact List.mem_cons_self _ _
  have hb : b ∈ kg.2 := by
    rw [hat, hbt]
    exact List.mem_cons_of_mem _ (List.mem_cons_self _ _)
  have hab : a.1 < b.1 := by
    have := bucket_pairwise hkg
    rw [hat, List.pairwise_cons] at this
    exact this.1 b (by rw [hbt]; exact List.mem_cons_self _ _)
  obtain ⟨haenum, hakey⟩ := bucket_subset_enum hkg a ha
  obtain ⟨hbenum, hbkey⟩ := bucket_subset_enum hkg b hb
  have hkne : kg.1 ≠ "" := ((front_groups_char cleaned).2.1 kg hkg).1
  -- pull the two cleaned positions back to surviving original entries
  have hpull : ∀ p : Nat × Card, p ∈ cleaned.enum →
      ∃ e : Nat × Card, F.get? p.1 = some e ∧ e.2 = p.2 := by
    intro p hp
    have hg := mem_enum_get hp
    rw [hclean, List.get?_map] at hg
    rcases hFe : F.get? p.1 with _ | e
    · rw [hFe] at hg; cases hg
    · rw [hFe] at hg
      injection hg with hg
      exact ⟨e, rfl, hg⟩
  obtain ⟨e1, he1, he1c⟩ := hpull a haenum
  obtain ⟨e2, he2, he2c⟩ := hpull b hbenum
  -- surviving entries are enum entries outside the removal set
  have hFfact : ∀ e : Nat × Card, e ∈ F → e ∈ cards.enum ∧ e.1 ∉ R := by
    intro e he
    rw [hF] at he
    have := List.mem_filter.mp he
    exact ⟨this.1, of_decide_eq_true this.2⟩
  have he1F : e1 ∈ F := List.get?_mem he1
  have he2F : e2 ∈ F := List.get?_mem he2
  obtain ⟨he1enum, he1R⟩ := hFfact e1 he1F
  obtain ⟨he2enum, he2R⟩ := hFfact e2 he2F
  -- original positions are still in increasing order
  have he12 : e1.1 < e2.1 := by
    have hFpair : F.Pairwise (fun p q => p.1 < q.1) :=
      (enum_pairwise cards).sublist (hF ▸ List.filter_sublist _)
    rw [List.pairwise_iff_getElem] at hFpair
    obtain ⟨hl1, hg1⟩ := List.get?_eq_some.mp he1
    obtain ⟨hl2, hg2⟩ := List.get?_eq_some.mp he2
    have := hFpair a.1 b.1 hl1 hl2 hab
    rw [List.get_eq_getElem] at hg1 hg2
    rw [hg1, hg2] at this
    exact this
  -- both carry the bucket's key
  have he1key : frontKey e1.2 = kg.1 := by rw [he1c]; exact hakey
  have he2key : frontKey e2.2 = kg.1 := by rw [he2c]; exact hbkey
  -- the original bucket for that key contains both entries
  obtain ⟨glO, hglO⟩ := (front_groups_char cards).2.2 e1 he1enum
    (by rw [he1key]; exact hkne)
  rw [he1key] at hglO
  have hbO : glO = cards.enum.filter (fun q => frontKey q.2 = kg.1) := by
    simpa using ((front_groups_char cards).2.1 (kg.1, glO) hglO).2
  have he1O : e1 ∈ glO := by
    rw [hbO, List.mem_filter]
    exact ⟨he1enum, by simpa using he1key⟩
  have he2O : e2 ∈ glO := by
    rw [hbO, List.mem_filter]
    exact ⟨he2enum, by simpa using he2key⟩
  have hlenO : 1 < glO.length :=
    two_mem_length he1O he2O (fun h => by rw [h] at he12; omega)
  -- that bucket forms an exact group, whose tail is entirely removed
  obtain ⟨h0, t0, hO⟩ := List.exists_cons_of_ne_nil
    (show glO ≠ [] from fun h => by rw [h] at hlenO; cases hlenO)
  have he2tail : e2 ∈ t0 := by
    have h2 := hO ▸ he2O
    rcases List.mem_cons.mp h2 with h' | h'
    · exfalso
      have h1 := hO ▸ he1O
      rcases List.mem_cons.mp h1 with h'' | h''
      · rw [h', h''] at he12; omega
      · have hp := bucket_pairwise hglO
        rw [hO, List.pairwise_cons] at hp
        have := hp.1 e1 h''
        rw [h'] at he12
        omega
    · exact h'
  have hgmem : (⟨"exact_front",
      glO.map (fun p => ⟨p.1, p.2, none⟩), none,
      s!"Identical front text: \"{kg.1}\""⟩ : DupGroup)
      ∈ (find_duplicates d cards).exact := by
    show _ ∈ exactGroups cards
    apply List.mem_filterMap.mpr
    exact ⟨(kg.1, glO), hglO, by rw [if_pos hlenO]⟩
  have he2removed : e2.1 ∈ (exactState (find_duplicates d cards)).2 := by
    rw [exactState, exactStep_fold_mem2]
    refine Or.inr ⟨_, hgmem, ⟨h0.1, h0.2, none⟩, t0.map (fun p => ⟨p.1, p.2, none⟩),
      by rw [hO]; rfl, ⟨e2.1, e2.2, none⟩, List.mem_map_of_mem _ he2tail, rfl⟩
  -- contradiction: e2 both survived and was targeted
  apply he2R
  rw [hR, removeAcc_fold_mem]
  refine Or.inr ?_
  obtain ⟨htargets, -, -⟩ := suggs_reduce_to_exact (find_duplicates d cards)
  rw [hsuggs, htargets]
  exact he2removed

/-!
A concrete full run on `deckExact`, for the witnesses.
-/

theorem deckExact_sim :
    calculate_similarity (frontAt deckExact 0) (frontAt deckExact 1) = 1 := by
  have := pyRatio_eval (frontAt deckExact 0).data (frontAt deckExact 1).data
    3 3 3 (by decide) (by decide) (by decide) (by decide)
  rw [calculate_similarity, this]
  norm_num

theorem deckExact_simcond :
    similarCondition defaultDetector deckExact 0 1 = false := by
  apply Bool.eq_false_iff.mpr
  intro h
  simp only [similarCondition, Bool.and_eq_true, decide_eq_true_eq,
    deckExact_sim] at h
  exact absurd h.2 (by norm_num)

theorem deckExact_suggs :
    generate_removal_suggestions (find_duplicates defaultDetector deckExact)
      = [Suggestion.removeS 1 "Identical front text: \"dup\"" 0] := by
  have hsimlist : (find_duplicates defaultDetector deckExact).similar = [] := by
    show (allPairs deckExact.length).filterMap
      (similarPair defaultDetector deckExact) = []
    rw [show allPairs deckExact.length = [(0, 1)] from by decide]
    simp only [List.filterMap_cons, List.filterMap_nil]
    rw [show similarPair defaultDetector deckExact (0, 1) = none from by
      simp only [similarPair]
      rw [if_neg (by decide), if_neg (by rw [deckExact_simcond]; exact fun h => by cases h)]]
  have hexact : (find_duplicates defaultDetector deckExact).exact
      = [exactGroupE] := by decide
  have hrev : (find_duplicates defaultDetector deckExact).reverse = [] := by decide
  have hsub : (find_duplicates defaultDetector deckExact).substring = [] := by decide
  simp only [generate_removal_suggestions, hexact, hrev, hsimlist, hsub]
  rfl

theorem remove_targets_valid_witness :
    (removeTargets (generate_removal_suggestions
      (find_duplicates defaultDetector deckExact))).Nodup ∧
    (1 : Nat) < deckExact.length :=
  ⟨(remove_targets_valid defaultDetector deckExact).1,
   (remove_targets_valid defaultDetector deckExact).2 1
     (by rw [deckExact_suggs]; decide)⟩

theorem duplicate_of_never_removed_witness :
    0 ∉ removeTargets (generate_removal_suggestions
      (find_duplicates defaultDetector deckExact)) ∧
    ∃ c, deckExact.get? 0 = some c ∧
      c ∈ apply_removals deckExact
        (generate_removal_suggestions (find_duplicates defaultDetector deckExact)) :=
  duplicate_of_never_removed defaultDetector deckExact 1
    "Identical front text: \"dup\"" 0
    (by rw [deckExact_suggs]; exact List.mem_singleton.mpr rfl)

/-!
Window bounds for `find_longest_match`: the reported match always lies
inside the requested window.  These feed the range bound on `ratio`.
-/

/-- The best triple lies inside the window. -/
def BestIn (alo ahi blo bhi : Nat) (best : Nat × Nat × Nat) : Prop :=
  alo ≤ best.1 ∧ blo ≤ best.2.1 ∧ best.1 + best.2.2 ≤ ahi ∧
    best.2.1 + best.2.2 ≤ bhi

theorem lookupJ_mem_or (l : List (Nat × Nat)) (j : Nat) :
    lookupJ l j = 0 ∨ ∃ e ∈ l, e.1 = j ∧ e.2 = lookupJ l j := by
  unfold lookupJ
  cases hf : l.find? (fun p => p.1 = j) with
  | none => exact Or.inl rfl
  | some e =>
    right
    refine ⟨e, List.mem_of_find?_eq_some hf, ?_, rfl⟩
    have := List.find?_some hf
    simpa using this

theorem flmStep_bestIn {alo ahi blo bhi : Nat} {old : List (Nat × Nat)}
    {i : Nat} {st : List (Nat × Nat) × Nat × Nat × Nat} {j : Nat}
    (hrow : alo ≤ i ∧ i < ahi) (hj : blo ≤ j ∧ j < bhi)
    (hold : ∀ e ∈ old, e.2 ≤ i - alo ∧ e.2 ≤ e.1 - blo + 1 ∧ blo ≤ e.1)
    (hst : BestIn alo ahi blo bhi st.2) :
    BestIn alo ahi blo bhi (flmStep old i st j).2 ∧
    ∀ e ∈ (flmStep old i st j).1, e ∈ st.1 ∨
      (e.1 = j ∧ e.2 ≤ i - alo + 1 ∧ e.2 ≤ e.1 - blo + 1) := by
  set k := (if j = 0 then 0 else lookupJ old (j - 1)) + 1 with hkdef
  have hk : k ≤ i - alo + 1 ∧ k ≤ j - blo + 1 ∧ 1 ≤ k := by
    rw [hkdef]
    split
    · omega
    · rename_i hj0
      rcases lookupJ_mem_or old (j - 1) with h | ⟨e, he, hej, hev⟩
      · rw [h]; omega
      · obtain ⟨h1, h2, h3⟩ := hold e he
        rw [← hev]
        omega
  have hstep : flmStep old i st j =
      if st.2.2.2 < k then (st.1 ++ [(j, k)], i + 1 - k, j + 1 - k, k)
      else (st.1 ++ [(j, k)], st.2) := rfl
  rw [hstep]
  constructor
  · split
    · rename_i hlt
      obtain ⟨hb1, hb2, hb3, hb4⟩ := hst
      exact ⟨by show alo ≤ i + 1 - k; omega, by show blo ≤ j + 1 - k; omega,
        by show i + 1 - k + k ≤ ahi; omega, by show j + 1 - k + k ≤ bhi; omega⟩
    · exact hst
  · intro e he
    have hmem : e ∈ st.1 ++ [(j, k)] := by
      split at he <;> simpa using he
    rcases List.mem_append.mp hmem with h | h
    · exact Or.inl h
    · rw [List.mem_singleton] at h
      subst h
      exact Or.inr ⟨rfl, hk.1, hk.2.1⟩

theorem flmRow_bestIn {a b : List Char} {alo ahi blo bhi : Nat} {i : Nat}
    (hrow : alo ≤ i ∧ i < ahi)
    {st : List (Nat × Nat) × Nat × Nat × Nat}
    (hold : ∀ e ∈ st.1, e.2 ≤ i - alo ∧ e.2 ≤ e.1 - blo + 1 ∧ blo ≤ e.1)
    (hst : BestIn alo ahi blo bhi st.2) :
    BestIn alo ahi blo bhi (flmRow a b blo bhi st i).2 ∧
    ∀ e ∈ (flmRow a b blo bhi st i).1,
      e.2 ≤ i - alo + 1 ∧ e.2 ≤ e.1 - blo + 1 ∧ blo ≤ e.1 := by
  unfold flmRow
  set js := (b2jF b (a.getD i ' ')).filter (fun j => blo ≤ j && j < bhi) with hjs
  have hjsmem : ∀ j ∈ js, blo ≤ j ∧ j < bhi := by
    intro j hj
    rw [hjs, List.mem_filter] at hj
    have := hj.2
    simp only [Bool.and_eq_true, decide_eq_true_eq] at this
    exact this
  -- fold the row, carrying the window bound and the entry bounds
  suffices h : ∀ (l : List Nat), (∀ j ∈ l, blo ≤ j ∧ j < bhi) →
      ∀ (nw : List (Nat × Nat)) (best : Nat × Nat × Nat),
      BestIn alo ahi blo bhi best →
      (∀ e ∈ nw, e.2 ≤ i - alo + 1 ∧ e.2 ≤ e.1 - blo + 1 ∧ blo ≤ e.1) →
      BestIn alo ahi blo bhi (l.foldl (flmStep st.1 i) (nw, best)).2 ∧
      ∀ e ∈ (l.foldl (flmStep st.1 i) (nw, best)).1,
        e.2 ≤ i - alo + 1 ∧ e.2 ≤ e.1 - blo + 1 ∧ blo ≤ e.1 by
    exact h js hjsmem [] st.2 hst (by intro e he; cases he)
  intro l
  induction l with
  | nil =>
    intro hl nw best hbest hnw
    exact ⟨hbest, hnw⟩
  | cons j l ih =>
    intro hl nw best hbest hnw
    rw [List.foldl_cons]
    have hj := hl j (List.mem_cons_self _ _)
    obtain ⟨hbest', hentries⟩ :=
      @flmStep_bestIn _ _ _ _ _ _ (nw, best) _ hrow hj hold hbest
    have hnw' : ∀ e ∈ (flmStep st.1 i (nw, best) j).1,
        e.2 ≤ i - alo + 1 ∧ e.2 ≤ e.1 - blo + 1 ∧ blo ≤ e.1 := by
      intro e he
      rcases hentries e he with h | ⟨h1, h2, h3⟩
      · exact hnw e h
      · exact ⟨h2, h3, by rw [h1]; exact hj.1⟩
    have := ih (fun j' hj' => hl j' (List.mem_cons_of_mem _ hj'))
      (flmStep st.1 i (nw, best) j).1 (flmStep st.1 i (nw, best) j).2 hbest' hnw'
    simpa using this

theorem flmDP_bestIn (a b : List Char) (alo ahi blo bhi : Nat)
    (hwin : alo ≤ ahi ∧ blo ≤ bhi) :
    BestIn alo ahi blo bhi (flmDP a b alo ahi blo bhi) := by
  unfold flmDP
  suffices h : ∀ (m : Nat), m ≤ ahi - alo →
      BestIn alo ahi blo bhi
        (((rowList alo (alo + m)).foldl (flmRow a b blo bhi) ([], alo, blo, 0)).2) ∧
      ∀ e ∈ ((rowList alo (alo + m)).foldl (flmRow a b blo bhi) ([], alo, blo, 0)).1,
        e.2 ≤ m ∧ e.2 ≤ e.1 - blo + 1 ∧ blo ≤ e.1 by
    have := (h (ahi - alo) (Nat.le_refl _)).1
    have heq : alo + (ahi - alo) = ahi := by omega
    rw [heq] at this
    exact this
  intro m
  induction m with
  | zero =>
    intro hm
    have hnil : rowList alo (alo + 0) = [] := by simp [rowList]
    rw [hnil, List.foldl_nil]
    constructor
    · exact ⟨by show alo ≤ alo; omega, by show blo ≤ blo; omega,
        by show alo + 0 ≤ ahi; omega, by show blo + 0 ≤ bhi; omega⟩
    · intro e he
      cases he
  | succ m ih =>
    intro hm
    have hsplit : rowList alo (alo + (m + 1))
        = rowList alo (alo + m) ++ [alo + m] := by
      unfold rowList
      have h1 : alo + (m + 1) - alo = m + 1 := by omega
      have h2 : alo + m - alo = m := by omega
      rw [h1, h2, List.range_succ, List.map_append]
      rfl
    rw [hsplit, List.foldl_append, List.foldl_cons, List.foldl_nil]
    obtain ⟨hbest, hentries⟩ := ih (by omega)
    set st := (rowList alo (alo + m)).foldl (flmRow a b blo bhi) ([], alo, blo, 0)
      with hst
    have hrow : alo ≤ alo + m ∧ alo + m < ahi := ⟨by omega, by omega⟩
    have hold : ∀ e ∈ st.1, e.2 ≤ (alo + m) - alo ∧ e.2 ≤ e.1 - blo + 1 ∧ blo ≤ e.1 := by
      intro e he
      obtain ⟨h1, h2, h3⟩ := hentries e he
      exact ⟨by omega, h2, h3⟩
    obtain ⟨hb, he⟩ := flmRow_bestIn hrow hold hbest
    refine ⟨hb, ?_⟩
    intro e hmem
    obtain ⟨h1, h2, h3⟩ := he e hmem
    exact ⟨by omega, h2, h3⟩

theorem extendBack_bestIn {a b : List Char} {alo ahi blo bhi : Nat} :
    ∀ (fuel : Nat) (st : Nat × Nat × Nat), BestIn alo ahi blo bhi st →
      BestIn alo ahi blo bhi (extendBack a b alo blo fuel st) := by
  intro fuel
  induction fuel with
  | zero => intro st h; exact h
  | succ fuel ih =>
    intro st h
    obtain ⟨bi, bj, bs⟩ := st
    rw [extendBack]
    split
    · rename_i hcond
      obtain ⟨hc1, hc2, -⟩ := hcond
      apply ih
      obtain ⟨h1, h2, h3, h4⟩ := h
      simp only at h1 h2 h3 h4
      exact ⟨by show alo ≤ bi - 1; omega, by show blo ≤ bj - 1; omega,
        by show bi - 1 + (bs + 1) ≤ ahi; omega,
        by show bj - 1 + (bs + 1) ≤ bhi; omega⟩
    · exact h

theorem extendFwd_bestIn {a b : List Char} {alo ahi blo bhi : Nat} :
    ∀ (fuel : Nat) (st : Nat × Nat × Nat), BestIn alo ahi blo bhi st →
      BestIn alo ahi blo bhi (extendFwd a b ahi bhi fuel st) := by
  intro fuel
  induction fuel with
  | zero => intro st h; exact h
  | succ fuel ih =>
    intro st h
    obtain ⟨bi, bj, bs⟩ := st
    rw [extendFwd]
    split
    · rename_i hcond
      obtain ⟨hc1, hc2, -⟩ := hcond
      apply ih
      obtain ⟨h1, h2, h3, h4⟩ := h
      simp only at h1 h2 h3 h4
      exact ⟨by show alo ≤ bi; omega, by show blo ≤ bj; omega,
        by show bi + (bs + 1) ≤ ahi; omega,
        by show bj + (bs + 1) ≤ bhi; omega⟩
    · exact h

theorem findLongestMatch_bestIn (a b : List Char) (alo ahi blo bhi : Nat)
    (hwin : alo ≤ ahi ∧ blo ≤ bhi) :
    BestIn alo ahi blo bhi (findLongestMatch a b alo ahi blo bhi) := by
  unfold findLongestMatch
  exact extendFwd_bestIn _ _ (extendBack_bestIn _ _ (flmDP_bestIn a b alo ahi blo bhi hwin))

theorem matchSumF_le (a b : List Char) :
    ∀ (fuel alo ahi blo bhi : Nat), alo ≤ ahi → blo ≤ bhi →
      matchSumF a b fuel alo ahi blo bhi ≤ ahi - alo ∧
      matchSumF a b fuel alo ahi blo bhi ≤ bhi - blo := by
  intro fuel
  induction fuel with
  | zero => intro alo ahi blo bhi h1 h2; exact ⟨Nat.zero_le _, Nat.zero_le _⟩
  | succ fuel ih =>
    intro alo ahi blo bhi h1 h2
    rw [matchSumF]
    obtain ⟨hb1, hb2, hb3, hb4⟩ := findLongestMatch_bestIn a b alo ahi blo bhi ⟨h1, h2⟩
    set m := findLongestMatch a b alo ahi blo bhi with hm
    split
    · exact ⟨Nat.zero_le _, Nat.zero_le _⟩
    · have hleft : (if alo < m.1 ∧ blo < m.2.1 then
          matchSumF a b fuel alo m.1 blo m.2.1 else 0) ≤ m.1 - alo ∧
          (if alo < m.1 ∧ blo < m.2.1 then
          matchSumF a b fuel alo m.1 blo m.2.1 else 0) ≤ m.2.1 - blo := by
        split
        · rename_i hc
          exact ih alo m.1 blo m.2.1 (by omega) (by omega)
        · exact ⟨Nat.zero_le _, Nat.zero_le _⟩
      have hright : (if m.1 + m.2.2 < ahi ∧ m.2.1 + m.2.2 < bhi then
          matchSumF a b fuel (m.1 + m.2.2) ahi (m.2.1 + m.2.2) bhi else 0)
            ≤ ahi - (m.1 + m.2.2) ∧
          (if m.1 + m.2.2 < ahi ∧ m.2.1 + m.2.2 < bhi then
          matchSumF a b fuel (m.1 + m.2.2) ahi (m.2.1 + m.2.2) bhi else 0)
            ≤ bhi - (m.2.1 + m.2.2) := by
        split
        · rename_i hc
          exact ih _ _ _ _ (by omega) (by omega)
        · exact ⟨Nat.zero_le _, Nat.zero_le _⟩
      constructor <;> omega

/-- Range of the ratio: `0 <= ratio <= 1`. -/
theorem pyRatio_range (a b : List Char) : 0 ≤ pyRatio a b ∧ pyRatio a b ≤ 1 := by
  unfold pyRatio
  split
  · norm_num
  · rename_i h0
    obtain ⟨hma, hmb⟩ := matchSumF_le a b (a.length + b.length + 1)
      0 a.length 0 b.length (Nat.zero_le _) (Nat.zero_le _)
    have hpos : (0 : ℚ) < (a.length : ℚ) + (b.length : ℚ) := by
      have : 0 < a.length + b.length := Nat.pos_of_ne_zero h0
      exact_mod_cast this
    constructor
    · apply div_nonneg _ (le_of_lt hpos)
      positivity
    · rw [div_le_one hpos]
      have h2 : 2 * matchSumF a b (a.length + b.length + 1) 0 a.length 0 b.length
          ≤ a.length + b.length := by omega
      exact_mod_cast h2

/-!
Reflexivity of the ratio.  Matching a sequence against itself, the
dynamic-programming best match is always diagonal (`besti = bestj`): within
each row the diagonal chain value dominates every other chain, because chain
values are bounded by the current run of non-autojunked positions both
row-wise and column-wise.  The extension loops then stretch any diagonal
best to the whole sequence, giving a full-length match.
-/

/-- Whether position `i` is visible to the matcher (its character is not
purged by autojunk). -/
def vis (x : List Char) (i : Nat) : Bool := !(isPopular x (x.getD i ' '))

/-- Length of the maximal all-visible run of positions ending at `i`. -/
def diagDepth (x : List Char) : Nat → Nat
  | 0 => if vis x 0 then 1 else 0
  | i + 1 => if vis x (i + 1) then diagDepth x i + 1 else 0

/-- `diagDepth` of the previous row (0 for the first row). -/
def prevDepth (x : List Char) : Nat → Nat
  | 0 => 0
  | i + 1 => diagDepth x i

theorem diagDepth_of_vis {x : List Char} {i : Nat} (h : vis x i = true) :
    diagDepth x i = prevDepth x i + 1 := by
  cases i with
  | zero => simp [diagDepth, prevDepth, h]
  | succ i => simp [diagDepth, prevDepth, h]

theorem diagDepth_of_not_vis {x : List Char} {i : Nat} (h : vis x i = false) :
    diagDepth x i = 0 := by
  cases i with
  | zero => simp [diagDepth, h]
  | succ i => simp [diagDepth, h]

/-- The chain value attempted for column `j`. -/
def kOf (old : List (Nat × Nat)) (j : Nat) : Nat :=
  (if j = 0 then 0 else lookupJ old (j - 1)) + 1

theorem flmStep_eq (old : List (Nat × Nat)) (i : Nat)
    (st : List (Nat × Nat) × Nat × Nat × Nat) (j : Nat) :
    flmStep old i st j =
      if st.2.2.2 < kOf old j
      then (st.1 ++ [(j, kOf old j)], i + 1 - kOf old j, j + 1 - kOf old j, kOf old j)
      else (st.1 ++ [(j, kOf old j)], st.2) := rfl

theorem fold_noupd {old : List (Nat × Nat)} {i : Nat} :
    ∀ (l : List Nat) (nw : List (Nat × Nat)) (best : Nat × Nat × Nat),
      (∀ j ∈ l, kOf old j ≤ best.2.2) →
      l.foldl (flmStep old i) (nw, best)
        = (nw ++ l.map (fun j => (j, kOf old j)), best) := by
  intro l
  induction l with
  | nil => intro nw best h; simp
  | cons j l ih =>
    intro nw best h
    rw [List.foldl_cons, flmStep_eq]
    rw [if_neg (by
      show ¬((nw, best).2.2.2 < kOf old j)
      have := h j (List.mem_cons_self _ _)
      simp only
      omega)]
    rw [ih _ best (fun j' hj' => h j' (List.mem_cons_of_mem _ hj'))]
    simp

theorem lookupJ_eq_of_mem {l : List (Nat × Nat)} {j v : Nat}
    (hnd : (l.map Prod.fst).Nodup) (hm : (j, v) ∈ l) : lookupJ l j = v := by
  induction l with
  | nil => cases hm
  | cons e l ih =>
    obtain ⟨j0, v0⟩ := e
    rw [List.map_cons, List.nodup_cons] at hnd
    rcases List.mem_cons.mp hm with h | h
    · injection h with h1 h2
      subst h1; subst h2
      unfold lookupJ
      rw [List.find?_cons_of_pos _ (by simp)]
    · by_cases hj : j0 = j
      · exfalso
        apply hnd.1
        rw [hj]
        have hmm : (j, v).1 ∈ l.map Prod.fst := List.mem_map_of_mem Prod.fst h
        exact hmm
      · unfold lookupJ
        rw [List.find?_cons_of_neg _ (by simpa using hj)]
        exact ih hnd.2 h

/-- The invariant carried between rows of the self-match DP: `st.1` is the
previous row's chain values (bounded row-wise and column-wise by the visible
run lengths, with the diagonal entry exact), and the running best is
diagonal and dominates every completed run. -/
def RInv (x : List Char) (i : Nat)
    (st : List (Nat × Nat) × Nat × Nat × Nat) : Prop :=
  (st.1.map Prod.fst).Nodup ∧
  (∀ e ∈ st.1, e.2 ≤ prevDepth x i ∧ e.2 ≤ diagDepth x e.1) ∧
  (1 ≤ i → vis x (i - 1) = true → (i - 1, diagDepth x (i - 1)) ∈ st.1) ∧
  (1 ≤ i → vis x (i - 1) = false → st.1 = []) ∧
  (i = 0 → st.1 = []) ∧
  (∃ p bs, st.2 = (p, p, bs) ∧ ∀ t, t < i → diagDepth x t ≤ bs)

theorem lookup_old_prev {x : List Char} {i : Nat}
    {st : List (Nat × Nat) × Nat × Nat × Nat}
    (h : RInv x i st) (hi : 1 ≤ i) : lookupJ st.1 (i - 1) = prevDepth x i := by
  obtain ⟨hnd, hbound, hdiag, hnil, -, -⟩ := h
  cases hvis : vis x (i - 1) with
  | true =>
    have hmem := hdiag hi hvis
    have := lookupJ_eq_of_mem hnd hmem
    rw [this]
    cases i with
    | zero => omega
    | succ i => rfl
  | false =>
    rw [hnil hi hvis]
    cases i with
    | zero => omega
    | succ i =>
      have hvis' : vis x i = false := hvis
      show lookupJ [] i = prevDepth x (i + 1)
      rw [show prevDepth x (i + 1) = diagDepth x i from rfl,
        diagDepth_of_not_vis hvis']
      rfl

theorem kOf_diag {x : List Char} {i : Nat}
    {st : List (Nat × Nat) × Nat × Nat × Nat} (h : RInv x i st) :
    kOf st.1 i = prevDepth x i + 1 := by
  unfold kOf
  cases i with
  | zero => rfl
  | succ i =>
    rw [if_neg (by omega)]
    rw [lookup_old_prev h (by omega)]

theorem kOf_le_prev {x : List Char} {i : Nat}
    {st : List (Nat × Nat) × Nat × Nat × Nat} (h : RInv x i st) (j : Nat) :
    kOf st.1 j ≤ prevDepth x i + 1 := by
  unfold kOf
  split
  · omega
  · rcases lookupJ_mem_or st.1 (j - 1) with h' | ⟨e, he, hej, hev⟩
    · omega
    · have := (h.2.1 e he).1
      omega

theorem kOf_le_col {x : List Char} {i : Nat}
    {st : List (Nat × Nat) × Nat × Nat × Nat} (h : RInv x i st)
    {j : Nat} (hvis : vis x j = true) :
    kOf st.1 j ≤ diagDepth x j := by
  rw [diagDepth_of_vis hvis]
  unfold kOf
  split
  · rename_i h0
    subst h0
    simp [prevDepth]
  · rename_i h0
    rcases lookupJ_mem_or st.1 (j - 1) with h' | ⟨e, he, hej, hev⟩
    · omega
    · have hcol := (h.2.1 e he).2
      rw [hej] at hcol
      have : prevDepth x j = diagDepth x (j - 1) := by
        cases j with
        | zero => omega
        | succ j => rfl
      omega

theorem occIdx_mem {x : List Char} {c : Char} {j : Nat} :
    j ∈ occIdx x c ↔ j < x.length ∧ x.get? j = some c := by
  unfold occIdx
  rw [List.mem_filter, List.mem_range]
  simp

theorem occIdx_sorted (x : List Char) (c : Char) :
    (occIdx x c).Pairwise (· < ·) :=
  (List.pairwise_lt_range _).sublist (List.filter_sublist _)

theorem occIdx_nodup (x : List Char) (c : Char) : (occIdx x c).Nodup :=
  (List.nodup_range _).filter _

theorem getD_of_get? {x : List Char} {j : Nat} {c : Char}
    (h : x.get? j = some c) : x.getD j ' ' = c := by
  unfold List.getD
  rw [h]
  rfl

theorem self_mem_occIdx {x : List Char} {i : Nat} (hi : i < x.length) :
    i ∈ occIdx x (x.getD i ' ') := by
  rw [occIdx_mem]
  have hc : x.get? i = some (x.get ⟨i, hi⟩) := List.get?_eq_get hi
  refine ⟨hi, ?_⟩
  rw [getD_of_get? hc]
  exact hc

theorem js_self {x : List Char} {i : Nat} (hi : i < x.length)
    (hvis : vis x i = true) :
    (b2jF x (x.getD i ' ')).filter (fun j => 0 ≤ j && j < x.length)
      = occIdx x (x.getD i ' ') := by
  unfold b2jF
  rw [if_neg (by
    unfold vis at hvis
    simp only [Bool.not_eq_true'] at hvis
    rw [Bool.not_eq_true]
    exact hvis)]
  apply List.filter_eq_self.mpr
  intro j hj
  have := occIdx_mem.mp hj
  simp [this.1]

theorem js_vis {x : List Char} {i j : Nat} (hvis : vis x i = true)
    (hj : j ∈ occIdx x (x.getD i ' ')) : vis x j = true := by
  have hm := occIdx_mem.mp hj
  have hch : x.getD j ' ' = x.getD i ' ' := getD_of_get? hm.2
  unfold vis at hvis ⊢
  rw [hch]
  exact hvis

theorem sorted_split {l : List Nat} {i : Nat}
    (hs : l.Pairwise (· < ·)) (hi : i ∈ l) :
    ∃ L R, l = L ++ i :: R ∧ (∀ j ∈ L, j < i) ∧ (∀ j ∈ R, i < j) := by
  obtain ⟨L, R, rfl⟩ := List.append_of_mem hi
  refine ⟨L, R, rfl, ?_, ?_⟩
  · intro j hj
    exact (List.pairwise_append.mp hs).2.2 j hj i (List.mem_cons_self _ _)
  · intro j hj
    exact (List.pairwise_cons.mp (List.pairwise_append.mp hs).2.1).1 j hj

theorem flmRow_RInv {x : List Char} {i : Nat} (hi : i < x.length)
    {st : List (Nat × Nat) × Nat × Nat × Nat} (h : RInv x i st) :
    RInv x (i + 1) (flmRow x x 0 x.length st i) := by
  obtain ⟨p, bs, hbest, hbst⟩ := h.2.2.2.2.2
  unfold flmRow
  cases hvis : vis x i with
  | false =>
    have hj : b2jF x (x.getD i ' ') = [] := by
      unfold b2jF
      rw [if_pos (by
        unfold vis at hvis
        simp only [Bool.not_eq_false'] at hvis
        exact hvis)]
    rw [hj]
    simp only [List.filter_nil, List.foldl_nil]
    refine ⟨List.nodup_nil, ?_, ?_, ?_, ?_, ?_⟩
    · intro e he; cases he
    · intro h1 hv
      rw [show (i + 1) - 1 = i from rfl, hvis] at hv
      cases hv
    · intro h1 hv; rfl
    · intro h0; omega
    · refine ⟨p, bs, hbest, ?_⟩
      intro t ht
      rcases Nat.lt_succ_iff_lt_or_eq.mp ht with h' | h'
      · exact hbst t h'
      · subst h'
        rw [diagDepth_of_not_vis hvis]
        omega
  | true =>
    rw [js_self hi hvis, hbest]
    obtain ⟨L, R, hsplit, hL, hR⟩ :=
      sorted_split (occIdx_sorted x (x.getD i ' ')) (self_mem_occIdx hi)
    have hjsvis : ∀ j ∈ occIdx x (x.getD i ' '), vis x j = true :=
      fun j hj => js_vis hvis hj
    have hk : kOf st.1 i = diagDepth x i := by
      rw [kOf_diag h, ← diagDepth_of_vis hvis]
    rw [hsplit, List.foldl_append, List.foldl_cons]
    -- phase 1: columns left of the diagonal never beat the current best
    rw [fold_noupd L [] (p, p, bs) (by
      intro j hj
      show kOf st.1 j ≤ bs
      have hjs : j ∈ occIdx x (x.getD i ' ') := by
        rw [hsplit]
        exact List.mem_append_left _ hj
      exact le_trans (kOf_le_col h (hjsvis j hjs)) (hbst j (hL j hj)))]
    rw [List.nil_append, flmStep_eq]
    -- the diagonal step: either it updates the best (diagonally) or not
    have hmain : ∀ (best' : Nat × Nat × Nat),
        (∃ p' bs', best' = (p', p', bs') ∧ bs ≤ bs' ∧ diagDepth x i ≤ bs') →
        RInv x (i + 1)
          (R.foldl (flmStep st.1 i)
            (L.map (fun j => (j, kOf st.1 j)) ++ [(i, kOf st.1 i)], best')) := by
      intro best' ⟨p', bs', hbest', hbsle, hble⟩
      rw [fold_noupd R _ best' (by
        intro j hj
        rw [hbest']
        show kOf st.1 j ≤ bs'
        calc kOf st.1 j ≤ prevDepth x i + 1 := kOf_le_prev h j
          _ = diagDepth x i := (diagDepth_of_vis hvis).symm
          _ ≤ bs' := hble)]
      have hentry : ∀ j ∈ occIdx x (x.getD i ' '),
          kOf st.1 j ≤ prevDepth x (i + 1) ∧ kOf st.1 j ≤ diagDepth x j := by
        intro j hj
        constructor
        · calc kOf st.1 j ≤ prevDepth x i + 1 := kOf_le_prev h j
            _ = diagDepth x i := (diagDepth_of_vis hvis).symm
            _ = prevDepth x (i + 1) := rfl
        · exact kOf_le_col h (hjsvis j hj)
      have hmapfst : ∀ (l : List Nat),
          (l.map (fun j => (j, kOf st.1 j))).map Prod.fst = l := by
        intro l
        induction l with
        | nil => rfl
        | cons a t ih => simp [ih]
      refine ⟨?_, ?_, ?_, ?_, ?_, ?_⟩
      · show ((L.map (fun j => (j, kOf st.1 j)) ++ [(i, kOf st.1 i)]
            ++ R.map (fun j => (j, kOf st.1 j))).map Prod.fst).Nodup
        have hkeys : (L.map (fun j => (j, kOf st.1 j)) ++ [(i, kOf st.1 i)]
            ++ R.map (fun j => (j, kOf st.1 j))).map Prod.fst
            = L ++ i :: R := by
          rw [List.map_append, List.map_append, hmapfst, hmapfst]
          simp
        rw [hkeys, ← hsplit]
        exact occIdx_nodup x (x.getD i ' ')
      · intro e he
        have hform : ∃ j ∈ occIdx x (x.getD i ' '), e = (j, kOf st.1 j) := by
          rcases List.mem_append.mp he with h1 | h1
          · rcases List.mem_append.mp h1 with h2 | h2
            · obtain ⟨j, hj, rfl⟩ := List.mem_map.mp h2
              refine ⟨j, ?_, rfl⟩
              rw [hsplit]
              exact List.mem_append_left _ hj
            · rw [List.mem_singleton] at h2
              subst h2
              refine ⟨i, ?_, rfl⟩
              rw [hsplit]
              exact List.mem_append_right _ (List.mem_cons_self _ _)
          · obtain ⟨j, hj, rfl⟩ := List.mem_map.mp h1
            refine ⟨j, ?_, rfl⟩
            rw [hsplit]
            exact List.mem_append_right _ (List.mem_cons_of_mem _ hj)
        obtain ⟨j, hj, rfl⟩ := hform
        exact hentry j hj
      · intro h1 hv
        show (i, diagDepth x i) ∈ _
        rw [← hk]
        exact List.mem_append_left _
          (List.mem_append_right _ (List.mem_singleton.mpr rfl))
      · intro h1 hv
        rw [show (i + 1) - 1 = i from rfl, hvis] at hv
        cases hv
      · intro h0; omega
      · refine ⟨p', bs', by rw [hbest'], ?_⟩
        intro t ht
        rcases Nat.lt_succ_iff_lt_or_eq.mp ht with h' | h'
        · exact le_trans (hbst t h') hbsle
        · subst h'
          exact hble
    split
    · rename_i hup
      have hup' : bs < kOf st.1 i := hup
      apply hmain
      refine ⟨i + 1 - kOf st.1 i, kOf st.1 i, rfl, ?_, ?_⟩
      · omega
      · rw [hk]
    · rename_i hnup
      have hnup' : ¬ bs < kOf st.1 i := hnup
      apply hmain
      refine ⟨p, bs, rfl, Nat.le_refl _, ?_⟩
      rw [← hk]
      omega

theorem flmDP_self_diag (x : List Char) :
    ∃ p bs, flmDP x x 0 x.length 0 x.length = (p, p, bs) := by
  unfold flmDP
  have haux : ∀ m, m ≤ x.length →
      RInv x m ((rowList 0 m).foldl (flmRow x x 0 x.length) ([], 0, 0, 0)) := by
    intro m
    induction m with
    | zero =>
      intro _
      exact ⟨List.nodup_nil, fun e he => absurd he (List.not_mem_nil e),
        fun h1 _ => absurd h1 (by omega), fun h1 _ => rfl, fun _ => rfl,
        0, 0, rfl, fun t ht => absurd ht (by omega)⟩
    | succ m ih =>
      intro hm
      have hrows : rowList 0 (m + 1) = rowList 0 m ++ [m] := by
        unfold rowList
        rw [Nat.sub_zero, Nat.sub_zero, List.range_succ, List.map_append]
        simp
      rw [hrows, List.foldl_append, List.foldl_cons, List.foldl_nil]
      exact flmRow_RInv (by omega) (ih (by omega))
  have h := haux x.length (Nat.le_refl _)
  obtain ⟨p, bs, hb, -⟩ := h.2.2.2.2.2
  exact ⟨p, bs, hb⟩

theorem chEq_self {x : List Char} {q : Nat} (hq : q < x.length) :
    chEq x x q q = true := by
  unfold chEq
  have hc : x.get? q = some (x.get ⟨q, hq⟩) := List.get?_eq_get hq
  rw [hc]
  simp

theorem extendBack_diag (x : List Char) :
    ∀ p bs, p + bs ≤ x.length →
      extendBack x x 0 0 p (p, p, bs) = (0, 0, bs + p) := by
  intro p
  induction p with
  | zero => intro bs h; rfl
  | succ p ih =>
    intro bs h
    rw [extendBack]
    rw [if_pos ⟨Nat.succ_pos p, Nat.succ_pos p, by
      exact chEq_self (show p + 1 - 1 < x.length by omega)⟩]
    rw [show p + 1 - 1 = p from rfl]
    rw [ih (bs + 1) (by omega)]
    rw [show bs + 1 + p = bs + (p + 1) from by omega]

theorem extendFwd_diag (x : List Char) :
    ∀ fuel s, s + fuel = x.length →
      extendFwd x x x.length x.length fuel (0, 0, s) = (0, 0, x.length) := by
  intro fuel
  induction fuel with
  | zero =>
    intro s h
    rw [extendFwd, show s = x.length from by omega]
  | succ fuel ih =>
    intro s h
    rw [extendFwd]
    rw [if_pos ⟨by omega, by omega, chEq_self (show 0 + s < x.length by omega)⟩]
    exact ih (s + 1) (by omega)

theorem flm_self (x : List Char) :
    findLongestMatch x x 0 x.length 0 x.length = (0, 0, x.length) := by
  obtain ⟨p, bs, hdp⟩ := flmDP_self_diag x
  have hbest := flmDP_bestIn x x 0 x.length 0 x.length
    ⟨Nat.zero_le _, Nat.zero_le _⟩
  rw [hdp] at hbest
  obtain ⟨-, -, h3, -⟩ := hbest
  have h3' : p + bs ≤ x.length := h3
  unfold findLongestMatch
  rw [hdp]
  show extendFwd x x x.length x.length
      (x.length - ((extendBack x x 0 0 p (p, p, bs)).1
        + (extendBack x x 0 0 p (p, p, bs)).2.2))
      (extendBack x x 0 0 p (p, p, bs)) = (0, 0, x.length)
  rw [extendBack_diag x p bs h3']
  exact extendFwd_diag x (x.length - ((0 : Nat) + (bs + p))) (bs + p) (by omega)

theorem matchSumF_self (x : List Char) (fuel : Nat) :
    matchSumF x x (fuel + 1) 0 x.length 0 x.length = x.length := by
  rw [matchSumF, flm_self x]
  simp only
  by_cases hn : x.length = 0
  · rw [if_pos hn, hn]
  · rw [if_neg hn, if_neg (show ¬((0 : Nat) < 0 ∧ (0 : Nat) < 0) by omega),
      if_neg (show ¬(0 + x.length < x.length ∧ 0 + x.length < x.length) by omega)]
    omega

theorem pyRatio_self (x : List Char) : pyRatio x x = 1 := by
  unfold pyRatio
  split
  · rfl
  · rename_i h0
    rw [matchSumF_self x]
    have hx : (0 : ℚ) < (x.length : ℚ) := by
      exact_mod_cast Nat.pos_of_ne_zero (by omega)
    rw [div_eq_one_iff_eq (by positivity)]
    ring

/-- Amended C6: `calculate_similarity` always lies in [0,1] and is reflexive
(`similarity(x,x) = 1` for every string, non-empty included) — but it is not
symmetric, so only the range and reflexivity clauses of the claim hold. -/
theorem similarity_range_and_reflexive :
    (∀ x y : String, 0 ≤ calculate_similarity x y ∧ calculate_similarity x y ≤ 1) ∧
    (∀ x : String, calculate_similarity x x = 1) := by
  constructor
  · intro x y
    exact pyRatio_range x.data y.data
  · intro x
    exact pyRatio_self x.data

end AnkiDup
